import Mathlib

/-!
# Verification of the Parsec LSP core

A shallow embedding, in Lean 4, of the core algorithms of the Parsec language
server (`src/state.rs`, `src/index.rs`, `src/symbols.rs`), together with
theorems settling the specification claims about them.

Strings are modelled as `List Char`; byte-level operations of the Rust code
(`as_bytes` indexing, `to_ascii_lowercase`) act only on ASCII bytes, so the
character-level model coincides with the byte-level one on every character.
Machine integers (`i64` scores, `usize` counters) are modelled as `Int`/`Nat`;
the Rust values stay far below the overflow bounds for any input that fits in
memory, so no wrap-around is modelled except where the source itself asks for
it (`wrapping_add`, which never wraps below 2^64 iterations).
-/

/-! ## Character utilities

`char::is_whitespace` (used through `str::trim`) and the regex class `\s` are
Unicode predicates in Rust; we model their ASCII core, which is the only part
exercised by the claims. -/

/-- ASCII whitespace, the model of `char::is_whitespace` / `str::trim`. -/
def isWsChar (c : Char) : Bool :=
  c = ' ' ∨ c = '\t' ∨ c = '\n' ∨ c = '\r'

/-- Model of byte-wise `to_ascii_lowercase` on one character. -/
def toLowerAscii (c : Char) : Char :=
  if c.isUpper then Char.ofNat (c.toNat + 32) else c

/-- Model of `str::to_ascii_lowercase`. -/
def lowerStr (s : List Char) : List Char := s.map toLowerAscii

/-- Model of `str::trim`: drop whitespace from both ends. -/
def trimChars (s : List Char) : List Char :=
  ((s.dropWhile isWsChar).reverse.dropWhile isWsChar).reverse

theorem lowerStr_length (s : List Char) : (lowerStr s).length = s.length :=
  List.length_map s toLowerAscii

theorem trimChars_all_ws {s : List Char} (h : ∀ c ∈ s, isWsChar c = true) :
    trimChars s = [] := by
  unfold trimChars
  have h1 : s.dropWhile isWsChar = [] := List.dropWhile_eq_nil_iff.mpr h
  rw [h1]
  rfl

/-! ## `fuzzy_score` (src/index.rs)

The Rust loop walks the lowercased name (`nblc`) by index `i`, keeping the
original name (`nb`) alongside for the bonus computations, advancing a cursor
`qi` into the lowercased query on every match.  We walk `name.zip name_lc`
(the two lists always have equal length at every call site, since
`to_ascii_lowercase` preserves length) and carry the remaining query,
the index `i`, the previous original character (`b' '` at index 0),
the index of the last match, and the accumulated score. -/

/-- Model of `is_boundary` (src/index.rs). -/
def is_boundary (c : Char) : Bool :=
  c = ' ' ∨ c = '_' ∨ c = '-' ∨ c = '/' ∨ c = '.' ∨
  c = '(' ∨ c = ')' ∨ c = '[' ∨ c = ']'

/-- The scoring loop of `fuzzy_score`.  Returns the accumulated score and the
unconsumed remainder of the query (the loop breaks as soon as the query is
exhausted; `qi == qb.len()` in the source corresponds to remainder `[]`).
In the gap branch the source computes `(i - last - 1) as i64` where `i > last`
always holds (a recorded match index is strictly below the current index), so
plain `Int` subtraction is faithful. -/
def fuzzyLoop : List (Char × Char) → List Char → Nat → Char → Option Nat → Int →
    Int × List Char
  | [], q, _, _, _, score => (score, q)
  | _ :: _, [], _, _, _, score => (score, [])
  | (c, clc) :: rest, qc :: qrest, i, prev, lastMatch, score =>
    if clc = qc then
      let s1 : Int := 10
      let s2 : Int := if is_boundary prev then s1 + 15 else s1
      let s3 : Int := if 0 < i ∧ c.isUpper ∧ prev.isLower then s2 + 12 else s2
      let s4 : Int :=
        match lastMatch with
        | some last =>
          if i = last + 1 then s3 + 8
          else s3 - 2 * min ((i : Int) - (last : Int) - 1) 8
        | none => if i < 3 then s3 + 5 else s3
      fuzzyLoop rest qrest (i + 1) c (some i) (score + s4)
    else
      fuzzyLoop rest (qc :: qrest) (i + 1) c lastMatch score

/-- Model of `fuzzy_score` (src/index.rs): `None` means the entry does not
qualify, `Some s` is its score. -/
def fuzzy_score (q_lc name name_lc : List Char) : Option Int :=
  if q_lc = [] then some 0
  else
    let r := fuzzyLoop (name.zip name_lc) q_lc 0 ' ' none 0
    if r.2 = [] then some r.1 else none

/-- The greedy left-to-right matcher consumes the whole query iff the query is
a subsequence of the scanned (lowercased) character list. -/
theorem fuzzyLoop_nil_iff :
    ∀ (pairs : List (Char × Char)) (q : List Char) (i : Nat) (prev : Char)
      (lastMatch : Option Nat) (score : Int),
      (fuzzyLoop pairs q i prev lastMatch score).2 = [] ↔
        List.Sublist q (pairs.map Prod.snd) := by
  intro pairs
  induction pairs with
  | nil =>
    intro q i prev lastMatch score
    simp [fuzzyLoop, List.sublist_nil]
  | cons p rest ih =>
    intro q i prev lastMatch score
    obtain ⟨c, clc⟩ := p
    cases q with
    | nil =>
      simp [fuzzyLoop, List.nil_sublist]
    | cons qc qrest =>
      by_cases hm : clc = qc
      · subst hm
        rw [fuzzyLoop, if_pos rfl, ih]
        exact (List.cons_sublist_cons (a := clc)).symm
      · rw [fuzzyLoop, if_neg hm, ih]
        constructor
        · intro h
          exact h.cons clc
        · intro h
          rcases List.cons_sublist_cons'.mp h with h2 | ⟨heq, _⟩
          · exact h2
          · exact absurd heq.symm hm

theorem fuzzy_score_lower_isSome_iff (q name : List Char) :
    (fuzzy_score (lowerStr q) name (lowerStr name)).isSome = true ↔
      List.Sublist (lowerStr q) (lowerStr name) := by
  unfold fuzzy_score
  by_cases hq : lowerStr q = []
  · simp [hq, List.nil_sublist]
  · have hlen : (lowerStr name).length ≤ name.length := le_of_eq (lowerStr_length name)
    have hmap : (name.zip (lowerStr name)).map Prod.snd = lowerStr name :=
      List.map_snd_zip name (lowerStr name) hlen
    have hiff := fuzzyLoop_nil_iff (name.zip (lowerStr name)) (lowerStr q) 0 ' ' none 0
    rw [hmap] at hiff
    simp only [if_neg hq]
    constructor
    · intro h
      by_cases h2 : (fuzzyLoop (name.zip (lowerStr name)) (lowerStr q) 0 ' ' none 0).2 = []
      · exact hiff.mp h2
      · rw [if_neg h2] at h
        simp at h
    · intro h
      rw [if_pos (hiff.mpr h)]
      rfl

/-- **C2.** For every query and name, `fuzzy_score`, applied as the index
applies it (lowercased query, original name, lowercased name), returns a score
iff the lowercased query is a subsequence of the lowercased name: its
characters occur in the name in order, not necessarily contiguously. -/
theorem C2_fuzzy_score_iff_subsequence (q name : List Char) :
    (fuzzy_score (lowerStr q) name (lowerStr name)).isSome = true ↔
      List.Sublist (lowerStr q) (lowerStr name) :=
  fuzzy_score_lower_isSome_iff q name

/-! ## The symbol index (src/index.rs)

`SymbolEntry` keeps the fields `search_fuzzy` reads: the name, the lowercased
name stored by `upsert_doc`, and the filesystem path (`Path` modelled as its
list of components; `Path::starts_with` is component-wise prefix). -/

structure SymbolEntry where
  name : List Char
  name_lowercase : List Char
  path : List String
deriving DecidableEq, Repr

/-- The per-symbol construction of `upsert_doc`: the search key is the
ASCII-lowercased name. -/
def mk_entry (name : List Char) (path : List String) : SymbolEntry :=
  { name := name, name_lowercase := lowerStr name, path := path }

/-- `root.is_none_or(|r| e.path.starts_with(r))` (src/index.rs). -/
def rootOk (root : Option (List String)) (e : SymbolEntry) : Bool :=
  match root with
  | none => true
  | some r => r.isPrefixOf e.path

/-- The ranking key pushed on the heap:
`(score, -(name.len() as i64), -(idx_counter as i64), bi, ei)`,
compared lexicographically exactly as Rust tuple `Ord`. -/
abbrev Key : Type := Int × Int × Int × Nat × Nat

def kScore (k : Key) : Int := k.1
def kNegLen (k : Key) : Int := k.2.1
def kNegIdx (k : Key) : Int := k.2.2.1
def kBi (k : Key) : Nat := k.2.2.2.1
def kEi (k : Key) : Nat := k.2.2.2.2

theorem kScore_mk (sc nl ni : Int) (b e : Nat) : kScore (sc, nl, ni, b, e) = sc := rfl

theorem kNegLen_mk (sc nl ni : Int) (b e : Nat) : kNegLen (sc, nl, ni, b, e) = nl := rfl

theorem kNegIdx_mk (sc nl ni : Int) (b e : Nat) : kNegIdx (sc, nl, ni, b, e) = ni := rfl

theorem kBi_mk (sc nl ni : Int) (b e : Nat) : kBi (sc, nl, ni, b, e) = b := rfl

theorem kEi_mk (sc nl ni : Int) (b e : Nat) : kEi (sc, nl, ni, b, e) = e := rfl

/-- Lexicographic `≤` on `Key`, the order `BinaryHeap<Reverse<Key>>` and
`sort_unstable_by` use (Rust derives tuple `Ord` component-wise). -/
def KeyLe (a b : Key) : Prop :=
  a.1 < b.1 ∨ (a.1 = b.1 ∧ (a.2.1 < b.2.1 ∨ (a.2.1 = b.2.1 ∧ (a.2.2.1 < b.2.2.1 ∨
    (a.2.2.1 = b.2.2.1 ∧ (a.2.2.2.1 < b.2.2.2.1 ∨
      (a.2.2.2.1 = b.2.2.2.1 ∧ a.2.2.2.2 ≤ b.2.2.2.2)))))))

/-- The reversed order used for the final descending sort
(`sort_unstable_by(|a, b| b.cmp(a))`). -/
def KeyGe (a b : Key) : Prop := KeyLe b a

instance : DecidableRel KeyLe := fun a b =>
  decidable_of_iff
    (a.1 < b.1 ∨ (a.1 = b.1 ∧ (a.2.1 < b.2.1 ∨ (a.2.1 = b.2.1 ∧ (a.2.2.1 < b.2.2.1 ∨
      (a.2.2.1 = b.2.2.1 ∧ (a.2.2.2.1 < b.2.2.2.1 ∨
        (a.2.2.2.1 = b.2.2.2.1 ∧ a.2.2.2.2 ≤ b.2.2.2.2))))))))
    Iff.rfl

instance : DecidableRel KeyGe := fun a b =>
  inferInstanceAs (Decidable (KeyLe b a))

instance : IsTotal Key KeyLe := by
  constructor
  rintro ⟨s1, l1, i1, b1, e1⟩ ⟨s2, l2, i2, b2, e2⟩
  unfold KeyLe
  dsimp only
  omega

instance : IsTrans Key KeyLe := by
  constructor
  rintro ⟨s1, l1, i1, b1, e1⟩ ⟨s2, l2, i2, b2, e2⟩ ⟨s3, l3, i3, b3, e3⟩
  unfold KeyLe
  dsimp only
  omega

instance : IsAntisymm Key KeyLe := by
  constructor
  rintro ⟨s1, l1, i1, b1, e1⟩ ⟨s2, l2, i2, b2, e2⟩
  unfold KeyLe
  simp only [Prod.mk.injEq]
  omega

instance : IsTotal Key KeyGe := by
  constructor
  intro a b
  show KeyLe b a ∨ KeyLe a b
  exact total_of KeyLe b a

instance : IsTrans Key KeyGe := by
  constructor
  intro a b c hab hbc
  exact Trans.trans (r := KeyLe) (s := KeyLe) hbc hab

instance : IsAntisymm Key KeyGe := by
  constructor
  intro a b hab hba
  exact antisymm (r := KeyLe) hba hab

/-- The candidate keys contributed by one document block `bi`, starting at
entry index `ei` with running `idx_counter = idx`; returns the keys together
with the final counter value.  Mirrors the inner loop of `search_fuzzy`:
the counter is incremented for every entry (`wrapping_add(1)`, which cannot
wrap for fewer than 2^64 entries), the root filter `continue`s, and a scored
entry pushes `(score, -(len), -(idx), bi, ei)`. -/
def keysInBlock (qlc : List Char) (root : Option (List String)) (bi : Nat) :
    List SymbolEntry → Nat → Nat → List Key × Nat
  | [], _, idx => ([], idx)
  | e :: rest, ei, idx =>
    let tailR := keysInBlock qlc root bi rest (ei + 1) (idx + 1)
    if rootOk root e then
      match fuzzy_score qlc e.name e.name_lowercase with
      | some score =>
        ((score, -(e.name.length : Int), -((idx + 1 : Nat) : Int), bi, ei) :: tailR.1,
          tailR.2)
      | none => tailR
    else tailR

/-- All candidate keys over all blocks (the outer `for (bi, blk)` loop). -/
def allKeys (qlc : List Char) (root : Option (List String)) :
    List (List SymbolEntry) → Nat → Nat → List Key
  | [], _, _ => []
  | blk :: rest, bi, idx =>
    let r := keysInBlock qlc root bi blk 0 idx
    r.1 ++ allKeys qlc root rest (bi + 1) r.2

/-- One step of the bounded min-heap: push, then drop the minimum when the
capacity `limit` is exceeded.  The `BinaryHeap<Reverse<Key>>` is modelled as a
list kept sorted ascending by `KeyLe`; `heap.pop()` on the reversed order
removes the minimal key, i.e. the head of the ascending list.  Keys are plain
tuples, so equal keys are indistinguishable and the model's multiset of keys
agrees with the heap's for every input. -/
def boundedPush (limit : Nat) (heap : List Key) (k : Key) : List Key :=
  if limit < (List.orderedInsert KeyLe k heap).length then
    (List.orderedInsert KeyLe k heap).tail
  else List.orderedInsert KeyLe k heap

/-- The sorted key list `search_fuzzy` derives its non-empty-query output
from: heap-select with capacity `limit`, then sort descending. -/
def searchKeys (blocks : List (List SymbolEntry)) (query : List Char)
    (root : Option (List String)) (limit : Nat) : List Key :=
  if limit = 0 then []
  else if trimChars query = [] then []
  else
    List.insertionSort KeyGe
      ((allKeys (lowerStr (trimChars query)) root blocks 0 0).foldl
        (boundedPush limit) [])

/-- `blocks[bi][ei]` — the final lookup mapping a key back to its entry.  The
indices stored in a key always denote the position of the entry that produced
it, so the fallback defaults are never reached. -/
def entryAt (blocks : List (List SymbolEntry)) (k : Key) : SymbolEntry :=
  (blocks.getD (kBi k) []).getD (kEi k) { name := [], name_lowercase := [], path := [] }

/-- Model of `SymbolIndex::search_fuzzy` (src/index.rs).  The index snapshot
is the list of per-document blocks in iteration order; the output keeps the
entries themselves (`to_lsp` only repackages the fields).  The empty-trimmed
query branch pushes root-filtered entries in order until `limit` is reached,
i.e. takes the first `limit` filtered entries. -/
def search_fuzzy (blocks : List (List SymbolEntry)) (query : List Char)
    (root : Option (List String)) (limit : Nat) : List SymbolEntry :=
  if limit = 0 then []
  else if trimChars query = [] then
    (List.filter (rootOk root) blocks.flatten).take limit
  else (searchKeys blocks query root limit).map (entryAt blocks)

/-- Modelled from the spec's words, for the refinement claim: "equivalent in
result to sort-and-truncate" — score every candidate, sort the whole key list
by the ranking order, truncate to the first `limit`, and map back to
entries. -/
def sort_and_truncate (blocks : List (List SymbolEntry)) (query : List Char)
    (root : Option (List String)) (limit : Nat) : List SymbolEntry :=
  if limit = 0 then []
  else if trimChars query = [] then
    (List.filter (rootOk root) blocks.flatten).take limit
  else
    ((List.insertionSort KeyGe
        (allKeys (lowerStr (trimChars query)) root blocks 0 0)).take limit).map
      (entryAt blocks)

/-! ## Heap selection versus sort-and-truncate

`trimTo limit l` keeps the last `limit` elements of `l`; on an ascending
sorted list these are the `limit` largest keys, which is what the bounded
min-heap retains. -/

def trimTo (limit : Nat) (l : List Key) : List Key := l.drop (l.length - limit)

theorem keyLe_trans {a b c : Key} (h1 : KeyLe a b) (h2 : KeyLe b c) : KeyLe a c := by
  obtain ⟨s1, l1, i1, b1, e1⟩ := a
  obtain ⟨s2, l2, i2, b2, e2⟩ := b
  obtain ⟨s3, l3, i3, b3, e3⟩ := c
  unfold KeyLe at *
  dsimp only at *
  omega

theorem trimTo_of_le {limit : Nat} {l : List Key} (h : l.length ≤ limit) :
    trimTo limit l = l := by
  unfold trimTo
  rw [Nat.sub_eq_zero_of_le h, List.drop_zero]

theorem trimTo_cons {limit : Nat} {a : Key} {l : List Key} (h : limit ≤ l.length) :
    trimTo limit (a :: l) = trimTo limit l := by
  unfold trimTo
  have h2 : (a :: l).length - limit = (l.length - limit) + 1 := by
    simp only [List.length_cons]
    omega
  rw [h2, List.drop_succ_cons]

theorem trimTo_length_of_le {limit : Nat} {l : List Key} (h : limit ≤ l.length) :
    (trimTo limit l).length = limit := by
  unfold trimTo
  rw [List.length_drop]
  omega

theorem trimTo_length_le (limit : Nat) (l : List Key) : (trimTo limit l).length ≤ limit := by
  rcases le_or_lt limit l.length with h | h
  · exact le_of_eq (trimTo_length_of_le h)
  · rw [trimTo_of_le (le_of_lt h)]
    exact le_of_lt h

theorem trimTo_sublist (limit : Nat) (l : List Key) : List.Sublist (trimTo limit l) l :=
  List.drop_sublist _ _

theorem orderedInsert_eq_cons {k : Key} {l : List Key} (h : ∀ x ∈ l, KeyLe k x) :
    List.orderedInsert KeyLe k l = k :: l := by
  cases l with
  | nil => rfl
  | cons a t =>
    simp only [List.orderedInsert]
    rw [if_pos (h a (List.mem_cons_self a t))]

/-- Trimming before or after an ordered insert gives the same trimmed list,
for a sorted input: inserting into the kept top `limit` keys and re-trimming
agrees with inserting into the whole list and trimming. -/
theorem trim_orderedInsert_trim (limit : Nat) :
    ∀ l : List Key, List.Sorted KeyLe l → ∀ k : Key,
      trimTo limit (List.orderedInsert KeyLe k (trimTo limit l)) =
        trimTo limit (List.orderedInsert KeyLe k l) := by
  intro l
  induction l with
  | nil =>
    intro _ k
    have h0 : trimTo limit ([] : List Key) = [] := by
      unfold trimTo
      simp
    rw [h0]
  | cons a t ih =>
    intro hs k
    by_cases hlen : (a :: t).length ≤ limit
    · rw [trimTo_of_le hlen]
    · have hlt : limit ≤ t.length := by
        simp only [List.length_cons] at hlen
        omega
      rw [trimTo_cons hlt]
      by_cases hka : KeyLe k a
      · simp only [List.orderedInsert]
        rw [if_pos hka]
        have h1 : trimTo limit (k :: a :: t) = trimTo limit t := by
          rw [trimTo_cons (by simp only [List.length_cons]; omega), trimTo_cons hlt]
        rw [h1]
        have hall : ∀ x ∈ trimTo limit t, KeyLe k x := by
          intro x hx
          have hxt : x ∈ t := (trimTo_sublist limit t).subset hx
          exact keyLe_trans hka (List.rel_of_sorted_cons hs x hxt)
        rw [orderedInsert_eq_cons hall]
        rw [trimTo_cons (le_of_eq (trimTo_length_of_le hlt).symm),
          trimTo_of_le (le_of_eq (trimTo_length_of_le hlt))]
      · simp only [List.orderedInsert]
        rw [if_neg hka]
        have h2 : trimTo limit (a :: List.orderedInsert KeyLe k t) =
            trimTo limit (List.orderedInsert KeyLe k t) := by
          apply trimTo_cons
          rw [List.orderedInsert_length]
          omega
        rw [h2, ih hs.of_cons k]

theorem boundedPush_eq_trim {limit : Nat} {h : List Key} (hlen : h.length ≤ limit)
    (k : Key) : boundedPush limit h k = trimTo limit (List.orderedInsert KeyLe k h) := by
  unfold boundedPush trimTo
  rw [List.orderedInsert_length]
  by_cases hc : limit < h.length + 1
  · rw [if_pos hc]
    have h1 : h.length + 1 - limit = 1 := by omega
    rw [h1]
    exact (List.drop_one _).symm
  · rw [if_neg hc]
    have h1 : h.length + 1 - limit = 0 := by omega
    rw [h1, List.drop_zero]

/-- Folding the bounded heap push over the candidates, starting from the trim
of a sorted accumulator, is the trim of folding plain ordered inserts. -/
theorem foldl_boundedPush_eq (limit : Nat) :
    ∀ (ks : List Key) (H : List Key), List.Sorted KeyLe H →
      ks.foldl (boundedPush limit) (trimTo limit H) =
        trimTo limit (ks.foldl (fun h k => List.orderedInsert KeyLe k h) H) := by
  intro ks
  induction ks with
  | nil => intro H _; rfl
  | cons k ks ih =>
    intro H hs
    rw [List.foldl_cons, List.foldl_cons,
      boundedPush_eq_trim (trimTo_length_le limit H) k,
      trim_orderedInsert_trim limit H hs k]
    exact ih (List.orderedInsert KeyLe k H) (hs.orderedInsert k H)

theorem foldl_orderedInsert_sorted :
    ∀ (ks H : List Key), List.Sorted KeyLe H →
      List.Sorted KeyLe (ks.foldl (fun h k => List.orderedInsert KeyLe k h) H) := by
  intro ks
  induction ks with
  | nil => intro H hs; exact hs
  | cons k ks ih =>
    intro H hs
    rw [List.foldl_cons]
    exact ih (List.orderedInsert KeyLe k H) (hs.orderedInsert k H)

theorem foldl_orderedInsert_perm :
    ∀ (ks H : List Key),
      List.Perm (ks.foldl (fun h k => List.orderedInsert KeyLe k h) H) (ks ++ H) := by
  intro ks
  induction ks with
  | nil => intro H; simp
  | cons k ks ih =>
    intro H
    rw [List.foldl_cons]
    refine (ih (List.orderedInsert KeyLe k H)).trans ?_
    refine ((ks.perm_append_left_iff.mpr (List.perm_orderedInsert KeyLe k H)).trans ?_)
    exact List.perm_middle

theorem foldl_orderedInsert_eq_insertionSort (ks : List Key) :
    ks.foldl (fun h k => List.orderedInsert KeyLe k h) [] =
      List.insertionSort KeyLe ks := by
  apply List.eq_of_perm_of_sorted (r := KeyLe)
  · refine (foldl_orderedInsert_perm ks []).trans ?_
    rw [List.append_nil]
    exact (List.perm_insertionSort KeyLe ks).symm
  · exact foldl_orderedInsert_sorted ks [] List.sorted_nil
  · exact List.sorted_insertionSort KeyLe ks

/-- The heap fold keeps exactly the `limit` largest candidate keys (the tail
of the fully sorted ascending list). -/
theorem heapFold_eq_trim (limit : Nat) (ks : List Key) :
    ks.foldl (boundedPush limit) [] = trimTo limit (List.insertionSort KeyLe ks) := by
  have h0 : trimTo limit ([] : List Key) = [] := by
    unfold trimTo
    simp
  have h1 := foldl_boundedPush_eq limit ks [] List.sorted_nil
  rw [h0] at h1
  rw [h1, foldl_orderedInsert_eq_insertionSort]

theorem insertionSort_keyGe_of_sorted {l : List Key} (h : List.Sorted KeyLe l) :
    List.insertionSort KeyGe l = l.reverse := by
  apply List.eq_of_perm_of_sorted (r := KeyGe)
  · exact (List.perm_insertionSort KeyGe l).trans (List.reverse_perm l).symm
  · exact List.sorted_insertionSort KeyGe l
  · exact List.pairwise_reverse.mpr (h.imp (fun hab => hab))

theorem insertionSort_keyGe_eq_reverse (ks : List Key) :
    List.insertionSort KeyGe ks = (List.insertionSort KeyLe ks).reverse := by
  apply List.eq_of_perm_of_sorted (r := KeyGe)
  · refine (List.perm_insertionSort KeyGe ks).trans ?_
    refine ((List.perm_insertionSort KeyLe ks).symm.trans ?_)
    exact (List.reverse_perm (List.insertionSort KeyLe ks)).symm
  · exact List.sorted_insertionSort KeyGe ks
  · exact List.pairwise_reverse.mpr
      ((List.sorted_insertionSort KeyLe ks).imp (fun hab => hab))

/-- The sorted key list actually returned equals the first `limit` keys of
the full descending sort of all candidates. -/
theorem searchKeys_eq_take (blocks : List (List SymbolEntry)) (query : List Char)
    (root : Option (List String)) (limit : Nat) (h0 : ¬limit = 0)
    (hq : ¬trimChars query = []) :
    searchKeys blocks query root limit =
      (List.insertionSort KeyGe
        (allKeys (lowerStr (trimChars query)) root blocks 0 0)).take limit := by
  unfold searchKeys
  rw [if_neg h0, if_neg hq]
  set ks := allKeys (lowerStr (trimChars query)) root blocks 0 0 with hks
  set T := List.insertionSort KeyLe ks with hT
  have hsortT : List.Sorted KeyLe T := List.sorted_insertionSort KeyLe ks
  have htrim : List.Sorted KeyLe (trimTo limit T) :=
    hsortT.sublist (trimTo_sublist limit T)
  rw [heapFold_eq_trim limit ks, insertionSort_keyGe_of_sorted htrim,
    insertionSort_keyGe_eq_reverse ks]
  unfold trimTo
  exact List.take_reverse.symm

/-- **C7.** The bounded min-heap selection of capacity `limit` used by
`search_fuzzy` (discarding the current worst candidate on overflow) returns
exactly the same entries as scoring all candidates, fully sorting by the
ranking order and truncating to the first `limit` — for arbitrary limits,
queries and score distributions (the two sides are equal as lists, hence in
particular as sets). -/
theorem C7_heap_equals_sort_and_truncate (blocks : List (List SymbolEntry))
    (query : List Char) (root : Option (List String)) (limit : Nat) :
    search_fuzzy blocks query root limit = sort_and_truncate blocks query root limit := by
  unfold search_fuzzy sort_and_truncate
  by_cases h0 : limit = 0
  · rw [if_pos h0, if_pos h0]
  by_cases hq : trimChars query = []
  · rw [if_neg h0, if_neg h0, if_pos hq, if_pos hq]
  rw [if_neg h0, if_neg h0, if_neg hq, if_neg hq,
    searchKeys_eq_take blocks query root limit h0 hq]

/-! ## Properties of the candidate-key generator -/

theorem keysInBlock_snd (qlc : List Char) (root : Option (List String)) (bi : Nat) :
    ∀ (blk : List SymbolEntry) (ei idx : Nat),
      (keysInBlock qlc root bi blk ei idx).2 = idx + blk.length := by
  intro blk
  induction blk with
  | nil => intro ei idx; rfl
  | cons e rest ih =>
    intro ei idx
    simp only [keysInBlock]
    by_cases hr : rootOk root e = true
    · rw [if_pos hr]
      cases hsc : fuzzy_score qlc e.name e.name_lowercase with
      | some score =>
        simp only [ih, List.length_cons]
        omega
      | none =>
        simp only [ih, List.length_cons]
        omega
    · rw [if_neg hr]
      simp only [ih, List.length_cons]
      omega

theorem keysInBlock_idx_bounds (qlc : List Char) (root : Option (List String)) (bi : Nat) :
    ∀ (blk : List SymbolEntry) (ei idx : Nat) (k : Key),
      k ∈ (keysInBlock qlc root bi blk ei idx).1 →
        (idx : Int) < -(kNegIdx k) ∧ -(kNegIdx k) ≤ ((idx + blk.length : Nat) : Int) := by
  intro blk
  induction blk with
  | nil => intro ei idx k hk; exact absurd hk (List.not_mem_nil k)
  | cons e rest ih =>
    intro ei idx k hk
    simp only [keysInBlock] at hk
    have step : k ∈ (keysInBlock qlc root bi rest (ei + 1) (idx + 1)).1 →
        (idx : Int) < -(kNegIdx k) ∧ -(kNegIdx k) ≤ ((idx + (e :: rest).length : Nat) : Int) := by
      intro hmem
      have h2 := ih (ei + 1) (idx + 1) k hmem
      constructor
      · have : ((idx : Int)) < ((idx + 1 : Nat) : Int) := by push_cast; omega
        omega
      · have h3 := h2.2
        simp only [List.length_cons]
        push_cast at h3 ⊢
        omega
    by_cases hr : rootOk root e = true
    · rw [if_pos hr] at hk
      cases hsc : fuzzy_score qlc e.name e.name_lowercase with
      | some score =>
        rw [hsc] at hk
        rcases List.mem_cons.mp hk with heq | hmem
        · subst heq
          simp only [kNegIdx_mk, List.length_cons]
          push_cast
          omega
        · exact step hmem
      | none =>
        rw [hsc] at hk
        exact step hk
    · rw [if_neg hr] at hk
      exact step hk

theorem keysInBlock_idx_pairwise (qlc : List Char) (root : Option (List String)) (bi : Nat) :
    ∀ (blk : List SymbolEntry) (ei idx : Nat),
      List.Pairwise (fun a b => -(kNegIdx a) < -(kNegIdx b))
        (keysInBlock qlc root bi blk ei idx).1 := by
  intro blk
  induction blk with
  | nil => intro ei idx; exact List.Pairwise.nil
  | cons e rest ih =>
    intro ei idx
    simp only [keysInBlock]
    by_cases hr : rootOk root e = true
    · rw [if_pos hr]
      cases hsc : fuzzy_score qlc e.name e.name_lowercase with
      | some score =>
        refine List.Pairwise.cons ?_ (ih (ei + 1) (idx + 1))
        intro k hk
        have h2 := (keysInBlock_idx_bounds qlc root bi rest (ei + 1) (idx + 1) k hk).1
        simp only [kNegIdx_mk]
        push_cast at h2 ⊢
        omega
      | none => exact ih (ei + 1) (idx + 1)
    · rw [if_neg hr]
      exact ih (ei + 1) (idx + 1)

theorem allKeys_idx_lower (qlc : List Char) (root : Option (List String)) :
    ∀ (blocks : List (List SymbolEntry)) (bi idx : Nat) (k : Key),
      k ∈ allKeys qlc root blocks bi idx → (idx : Int) < -(kNegIdx k) := by
  intro blocks
  induction blocks with
  | nil => intro bi idx k hk; exact absurd hk (List.not_mem_nil k)
  | cons blk rest ih =>
    intro bi idx k hk
    simp only [allKeys] at hk
    rcases List.mem_append.mp hk with h1 | h2
    · exact (keysInBlock_idx_bounds qlc root bi blk 0 idx k h1).1
    · have h3 := ih (bi + 1) (keysInBlock qlc root bi blk 0 idx).2 k h2
      rw [keysInBlock_snd] at h3
      push_cast at h3 ⊢
      omega

theorem allKeys_idx_pairwise (qlc : List Char) (root : Option (List String)) :
    ∀ (blocks : List (List SymbolEntry)) (bi idx : Nat),
      List.Pairwise (fun a b => -(kNegIdx a) < -(kNegIdx b))
        (allKeys qlc root blocks bi idx) := by
  intro blocks
  induction blocks with
  | nil => intro bi idx; exact List.Pairwise.nil
  | cons blk rest ih =>
    intro bi idx
    simp only [allKeys]
    refine List.pairwise_append.mpr ⟨keysInBlock_idx_pairwise qlc root bi blk 0 idx,
      ih (bi + 1) _, ?_⟩
    intro a ha b hb
    have h1 := (keysInBlock_idx_bounds qlc root bi blk 0 idx a ha).2
    have h2 := allKeys_idx_lower qlc root rest (bi + 1) _ b hb
    rw [keysInBlock_snd] at h2
    omega

theorem allKeys_length_le (qlc : List Char) (root : Option (List String)) :
    ∀ (blocks : List (List SymbolEntry)) (bi idx : Nat),
      (allKeys qlc root blocks bi idx).length ≤ (blocks.map List.length).sum := by
  intro blocks
  have hblk : ∀ (blk : List SymbolEntry) (bi ei idx : Nat),
      (keysInBlock qlc root bi blk ei idx).1.length ≤ blk.length := by
    intro blk bi
    induction blk with
    | nil => intro ei idx; exact Nat.le_refl 0
    | cons e rest ih =>
      intro ei idx
      simp only [keysInBlock, List.length_cons]
      by_cases hr : rootOk root e = true
      · rw [if_pos hr]
        cases hsc : fuzzy_score qlc e.name e.name_lowercase with
        | some score =>
          simp only [List.length_cons]
          exact Nat.succ_le_succ (ih (ei + 1) (idx + 1))
        | none => exact Nat.le_succ_of_le (ih (ei + 1) (idx + 1))
      · rw [if_neg hr]
        exact Nat.le_succ_of_le (ih (ei + 1) (idx + 1))
  induction blocks with
  | nil => intro bi idx; exact Nat.le_refl 0
  | cons blk rest ih =>
    intro bi idx
    simp only [allKeys, List.length_append, List.map_cons, List.sum_cons]
    exact Nat.add_le_add (hblk blk bi 0 idx) (ih (bi + 1) _)

/-- Every generated key records the position `(bi, ei)` of the entry that
produced it, together with that entry's score and name length. -/
theorem keysInBlock_wf (qlc : List Char) (root : Option (List String)) (bi : Nat) :
    ∀ (blk : List SymbolEntry) (ei0 idx0 : Nat) (k : Key),
      k ∈ (keysInBlock qlc root bi blk ei0 idx0).1 →
        kBi k = bi ∧ ei0 ≤ kEi k ∧ ∃ e, blk.get? (kEi k - ei0) = some e ∧
          rootOk root e = true ∧
          fuzzy_score qlc e.name e.name_lowercase = some (kScore k) ∧
          kNegLen k = -(e.name.length : Int) := by
  intro blk
  induction blk with
  | nil => intro ei0 idx0 k hk; exact absurd hk (List.not_mem_nil k)
  | cons e rest ih =>
    intro ei0 idx0 k hk
    simp only [keysInBlock] at hk
    have step : k ∈ (keysInBlock qlc root bi rest (ei0 + 1) (idx0 + 1)).1 →
        kBi k = bi ∧ ei0 ≤ kEi k ∧ ∃ e2, (e :: rest).get? (kEi k - ei0) = some e2 ∧
          rootOk root e2 = true ∧
          fuzzy_score qlc e2.name e2.name_lowercase = some (kScore k) ∧
          kNegLen k = -(e2.name.length : Int) := by
      intro hmem
      obtain ⟨hbi, hle, e2, hget, hrest⟩ := ih (ei0 + 1) (idx0 + 1) k hmem
      refine ⟨hbi, by omega, e2, ?_, hrest⟩
      have hidx : kEi k - ei0 = (kEi k - (ei0 + 1)) + 1 := by omega
      rw [hidx]
      exact hget
    by_cases hr : rootOk root e = true
    · rw [if_pos hr] at hk
      cases hsc : fuzzy_score qlc e.name e.name_lowercase with
      | some score =>
        rw [hsc] at hk
        rcases List.mem_cons.mp hk with heq | hmem
        · subst heq
          refine ⟨rfl, Nat.le_refl ei0, e, ?_, hr, hsc, rfl⟩
          have h0 : kEi (score, -(e.name.length : Int), -((idx0 + 1 : Nat) : Int), bi, ei0)
              - ei0 = 0 := by
            simp only [kEi_mk]
            omega
          rw [h0]
          rfl
        · exact step hmem
      | none =>
        rw [hsc] at hk
        exact step hk
    · rw [if_neg hr] at hk
      exact step hk

theorem allKeys_wf (qlc : List Char) (root : Option (List String)) :
    ∀ (blocks : List (List SymbolEntry)) (b0 idx0 : Nat) (k : Key),
      k ∈ allKeys qlc root blocks b0 idx0 →
        b0 ≤ kBi k ∧ ∃ blk, blocks.get? (kBi k - b0) = some blk ∧
          ∃ e, blk.get? (kEi k) = some e ∧ rootOk root e = true ∧
            fuzzy_score qlc e.name e.name_lowercase = some (kScore k) ∧
            kNegLen k = -(e.name.length : Int) := by
  intro blocks
  induction blocks with
  | nil => intro b0 idx0 k hk; exact absurd hk (List.not_mem_nil k)
  | cons blk rest ih =>
    intro b0 idx0 k hk
    simp only [allKeys] at hk
    rcases List.mem_append.mp hk with h1 | h2
    · obtain ⟨hbi, hle, e, hget, hrest⟩ := keysInBlock_wf qlc root b0 blk 0 idx0 k h1
      refine ⟨le_of_eq hbi.symm, blk, ?_, e, ?_, hrest⟩
      · have h0 : kBi k - b0 = 0 := by omega
        rw [h0]
        rfl
      · rw [Nat.sub_zero] at hget
        exact hget
    · obtain ⟨hle, blk2, hget, hrest⟩ := ih (b0 + 1) _ k h2
      refine ⟨by omega, blk2, ?_, hrest⟩
      have hidx : kBi k - b0 = (kBi k - (b0 + 1)) + 1 := by omega
      rw [hidx]
      exact hget

theorem entryAt_of_get {blocks : List (List SymbolEntry)} {k : Key}
    {blk : List SymbolEntry} {e : SymbolEntry} (h1 : blocks.get? (kBi k) = some blk)
    (h2 : blk.get? (kEi k) = some e) : entryAt blocks k = e := by
  unfold entryAt
  have hb : blocks.getD (kBi k) [] = blk := by
    rw [List.getD_eq_getElem?_getD, ← List.get?_eq_getElem?, h1]
    rfl
  rw [hb, List.getD_eq_getElem?_getD, ← List.get?_eq_getElem?, h2]
  rfl

/-- Forward direction: an entry at position `(bi, j)` that survives the root
filter and qualifies on the query contributes a key. -/
theorem keysInBlock_mem (qlc : List Char) (root : Option (List String)) (bi : Nat) :
    ∀ (blk : List SymbolEntry) (ei0 idx0 j : Nat) (e : SymbolEntry) (score : Int),
      blk.get? j = some e → rootOk root e = true →
      fuzzy_score qlc e.name e.name_lowercase = some score →
      ∃ idxv : Nat, (score, -(e.name.length : Int), -((idxv : Nat) : Int), bi, ei0 + j) ∈
        (keysInBlock qlc root bi blk ei0 idx0).1 := by
  intro blk
  induction blk with
  | nil => intro ei0 idx0 j e score hget; cases hget
  | cons a rest ih =>
    intro ei0 idx0 j e score hget hroot hsc
    cases j with
    | zero =>
      have ha : a = e := by
        have : some a = some e := hget
        exact Option.some.inj this
      subst ha
      refine ⟨idx0 + 1, ?_⟩
      simp only [keysInBlock]
      rw [if_pos hroot, hsc]
      rw [Nat.add_zero]
      exact List.mem_cons_self _ _
    | succ j2 =>
      obtain ⟨idxv, hmem⟩ := ih (ei0 + 1) (idx0 + 1) j2 e score hget hroot hsc
      refine ⟨idxv, ?_⟩
      have hei : ei0 + (j2 + 1) = (ei0 + 1) + j2 := by omega
      rw [hei]
      simp only [keysInBlock]
      by_cases hr : rootOk root a = true
      · rw [if_pos hr]
        cases hsc2 : fuzzy_score qlc a.name a.name_lowercase with
        | some s2 => exact List.mem_cons_of_mem _ hmem
        | none => exact hmem
      · rw [if_neg hr]
        exact hmem

theorem allKeys_mem (qlc : List Char) (root : Option (List String)) :
    ∀ (blocks : List (List SymbolEntry)) (b0 idx0 bi j : Nat)
      (blk : List SymbolEntry) (e : SymbolEntry) (score : Int),
      blocks.get? bi = some blk → blk.get? j = some e → rootOk root e = true →
      fuzzy_score qlc e.name e.name_lowercase = some score →
      ∃ idxv : Nat, (score, -(e.name.length : Int), -((idxv : Nat) : Int), b0 + bi, j) ∈
        allKeys qlc root blocks b0 idx0 := by
  intro blocks
  induction blocks with
  | nil => intro b0 idx0 bi j blk e score hget; cases hget
  | cons blk0 rest ih =>
    intro b0 idx0 bi j blk e score hgetb hget hroot hsc
    cases bi with
    | zero =>
      have hb : blk0 = blk := by
        have : some blk0 = some blk := hgetb
        exact Option.some.inj this
      subst hb
      obtain ⟨idxv, hmem⟩ := keysInBlock_mem qlc root b0 blk0 0 idx0 j e score hget hroot hsc
      refine ⟨idxv, ?_⟩
      simp only [allKeys]
      rw [Nat.add_zero]
      have hmem2 := hmem
      rw [Nat.zero_add] at hmem2
      exact List.mem_append.mpr (Or.inl hmem2)
    | succ bi2 =>
      obtain ⟨idxv, hmem⟩ := ih (b0 + 1) _ bi2 j blk e score hgetb hget hroot hsc
      refine ⟨idxv, ?_⟩
      have hb : b0 + (bi2 + 1) = (b0 + 1) + bi2 := by omega
      rw [hb]
      simp only [allKeys]
      exact List.mem_append.mpr (Or.inr hmem)

/-! ## Ordering of the returned results (C6, C8, C10) -/

theorem searchKeys_sorted (blocks : List (List SymbolEntry)) (query : List Char)
    (root : Option (List String)) (limit : Nat) :
    List.Sorted KeyGe (searchKeys blocks query root limit) := by
  unfold searchKeys
  split_ifs with h0 hq
  · exact List.sorted_nil
  · exact List.sorted_nil
  · exact List.sorted_insertionSort KeyGe _

theorem searchKeys_length_le (blocks : List (List SymbolEntry)) (query : List Char)
    (root : Option (List String)) (limit : Nat) :
    (searchKeys blocks query root limit).length ≤ limit := by
  unfold searchKeys
  split_ifs with h0 hq
  · exact Nat.zero_le limit
  · exact Nat.zero_le limit
  · rw [(List.perm_insertionSort KeyGe _).length_eq, heapFold_eq_trim]
    exact trimTo_length_le limit _

theorem searchKeys_subset (blocks : List (List SymbolEntry)) (query : List Char)
    (root : Option (List String)) (limit : Nat) :
    ∀ k ∈ searchKeys blocks query root limit,
      k ∈ allKeys (lowerStr (trimChars query)) root blocks 0 0 := by
  intro k hk
  unfold searchKeys at hk
  split_ifs at hk with h0 hq
  · exact absurd hk (List.not_mem_nil k)
  · exact absurd hk (List.not_mem_nil k)
  · have h1 : k ∈ (allKeys (lowerStr (trimChars query)) root blocks 0 0).foldl
        (boundedPush limit) [] :=
      ((List.perm_insertionSort KeyGe _).mem_iff).mp hk
    rw [heapFold_eq_trim] at h1
    have h2 : k ∈ List.insertionSort KeyLe (allKeys (lowerStr (trimChars query)) root blocks 0 0) :=
      (trimTo_sublist limit _).subset h1
    exact ((List.perm_insertionSort KeyLe _).mem_iff).mp h2

theorem searchKeys_negIdx_pairwise (blocks : List (List SymbolEntry)) (query : List Char)
    (root : Option (List String)) (limit : Nat) :
    List.Pairwise (fun a b : Key => kNegIdx a ≠ kNegIdx b)
      (searchKeys blocks query root limit) := by
  unfold searchKeys
  split_ifs with h0 hq
  · exact List.Pairwise.nil
  · exact List.Pairwise.nil
  · set ks := allKeys (lowerStr (trimChars query)) root blocks 0 0 with hks
    have hbase : List.Pairwise (fun a b : Key => kNegIdx a ≠ kNegIdx b) ks :=
      (allKeys_idx_pairwise (lowerStr (trimChars query)) root blocks 0 0).imp
        (fun h => by omega)
    have hT : List.Pairwise (fun a b : Key => kNegIdx a ≠ kNegIdx b)
        (List.insertionSort KeyLe ks) :=
      (List.Perm.pairwise_iff (fun h => Ne.symm h)
        (List.perm_insertionSort KeyLe ks)).mpr hbase
    have htrim : List.Pairwise (fun a b : Key => kNegIdx a ≠ kNegIdx b)
        (trimTo limit (List.insertionSort KeyLe ks)) :=
      hT.sublist (trimTo_sublist limit _)
    rw [heapFold_eq_trim]
    exact (List.Perm.pairwise_iff (fun h => Ne.symm h)
      (List.perm_insertionSort KeyGe _)).mpr htrim

/-- The ranking relation of the spec, on keys: strictly higher score first;
on a score tie the shorter name (greater `-(len)`) first; on a further tie the
earlier discovery index (greater `-(idx)`) first. -/
def rankR (a b : Key) : Prop :=
  kScore b < kScore a ∨ (kScore a = kScore b ∧
    (kNegLen b < kNegLen a ∨ (kNegLen a = kNegLen b ∧ kNegIdx b < kNegIdx a)))

theorem keyGe_ne_rankR {a b : Key} (h1 : KeyGe a b) (h2 : kNegIdx a ≠ kNegIdx b) :
    rankR a b := by
  obtain ⟨s1, l1, i1, b1, e1⟩ := a
  obtain ⟨s2, l2, i2, b2, e2⟩ := b
  unfold KeyGe KeyLe at h1
  unfold kNegIdx at h2
  unfold rankR kScore kNegLen kNegIdx
  dsimp only at h1 h2 ⊢
  omega

/-- **C6.** For every query that is non-empty after trimming, `search_fuzzy`
returns at most `limit` entries; the output is the image of the sorted key
list, which is ordered by score descending with ties broken by shorter name
first (`kNegLen = -(name length)`) and remaining ties by earlier discovery
order (`kNegIdx = -(discovery index)`, strictly, hence stably); and every key
carries the actual score, name length and root-filter verdict of the entry it
denotes. -/
theorem C6_ranked_results (blocks : List (List SymbolEntry)) (query : List Char)
    (root : Option (List String)) (limit : Nat) (hq : trimChars query ≠ []) :
    (search_fuzzy blocks query root limit).length ≤ limit ∧
    search_fuzzy blocks query root limit =
      (searchKeys blocks query root limit).map (entryAt blocks) ∧
    List.Pairwise rankR (searchKeys blocks query root limit) ∧
    ∀ k ∈ searchKeys blocks query root limit,
      kNegLen k = -(((entryAt blocks k).name.length : Int)) ∧
      fuzzy_score (lowerStr (trimChars query)) (entryAt blocks k).name
        (entryAt blocks k).name_lowercase = some (kScore k) ∧
      rootOk root (entryAt blocks k) = true := by
  have hmap : search_fuzzy blocks query root limit =
      (searchKeys blocks query root limit).map (entryAt blocks) := by
    unfold search_fuzzy searchKeys
    by_cases h0 : limit = 0
    · rw [if_pos h0, if_pos h0]
      rfl
    · rw [if_neg h0, if_neg h0, if_neg hq, if_neg hq]
  refine ⟨?_, hmap, ?_, ?_⟩
  · rw [hmap, List.length_map]
    exact searchKeys_length_le blocks query root limit
  · have hsorted : List.Pairwise KeyGe (searchKeys blocks query root limit) :=
      searchKeys_sorted blocks query root limit
    have hne := searchKeys_negIdx_pairwise blocks query root limit
    exact (hsorted.and hne).imp (fun h => keyGe_ne_rankR h.1 h.2)
  · intro k hk
    have hks := searchKeys_subset blocks query root limit k hk
    obtain ⟨-, blk, hgetb, e, hgete, hroot, hsc, hlen⟩ :=
      allKeys_wf (lowerStr (trimChars query)) root blocks 0 0 k hks
    rw [Nat.sub_zero] at hgetb
    rw [entryAt_of_get hgetb hgete]
    exact ⟨hlen, hsc, hroot⟩

/-- Witness for C6 at a concrete index: two entries `a_b` and `ab`, query
`ab`, limit 2. -/
theorem C6_witness :
    trimChars ('a' :: 'b' :: []) ≠ [] ∧
    ((search_fuzzy [[mk_entry ('a' :: '_' :: 'b' :: []) [], mk_entry ('a' :: 'b' :: []) []]]
        ('a' :: 'b' :: []) none 2).length ≤ 2 ∧
      search_fuzzy [[mk_entry ('a' :: '_' :: 'b' :: []) [], mk_entry ('a' :: 'b' :: []) []]]
          ('a' :: 'b' :: []) none 2 =
        (searchKeys [[mk_entry ('a' :: '_' :: 'b' :: []) [], mk_entry ('a' :: 'b' :: []) []]]
            ('a' :: 'b' :: []) none 2).map
          (entryAt [[mk_entry ('a' :: '_' :: 'b' :: []) [], mk_entry ('a' :: 'b' :: []) []]]) ∧
      List.Pairwise rankR
        (searchKeys [[mk_entry ('a' :: '_' :: 'b' :: []) [], mk_entry ('a' :: 'b' :: []) []]]
          ('a' :: 'b' :: []) none 2) ∧
      ∀ k ∈ searchKeys [[mk_entry ('a' :: '_' :: 'b' :: []) [], mk_entry ('a' :: 'b' :: []) []]]
          ('a' :: 'b' :: []) none 2,
        kNegLen k = -(((entryAt [[mk_entry ('a' :: '_' :: 'b' :: []) [],
            mk_entry ('a' :: 'b' :: []) []]] k).name.length : Int)) ∧
        fuzzy_score (lowerStr (trimChars ('a' :: 'b' :: [])))
            (entryAt [[mk_entry ('a' :: '_' :: 'b' :: []) [],
              mk_entry ('a' :: 'b' :: []) []]] k).name
            (entryAt [[mk_entry ('a' :: '_' :: 'b' :: []) [],
              mk_entry ('a' :: 'b' :: []) []]] k).name_lowercase = some (kScore k) ∧
        rootOk none (entryAt [[mk_entry ('a' :: '_' :: 'b' :: []) [],
            mk_entry ('a' :: 'b' :: []) []]] k) = true) :=
  ⟨by decide,
    C6_ranked_results [[mk_entry ('a' :: '_' :: 'b' :: []) [], mk_entry ('a' :: 'b' :: []) []]]
      ('a' :: 'b' :: []) none 2 (by decide)⟩

/-- **C8 (amended).** An entry present in the index, queried by its exact
name (itself free of surrounding whitespace and non-empty), in scope, is
always returned provided the limit is at least the total number of indexed
entries.  (The original claim with `limit ≥ 1` is refuted by
`C8_counterexample`: a higher-scoring competitor can displace the exact match
from the bounded heap.) -/
theorem C8_exact_name_recall (blocks : List (List SymbolEntry))
    (root : Option (List String)) (limit bi j : Nat) (blk : List SymbolEntry)
    (e : SymbolEntry) (hblk : blocks.get? bi = some blk) (he : blk.get? j = some e)
    (hlc : e.name_lowercase = lowerStr e.name) (hroot : rootOk root e = true)
    (htrim : trimChars e.name = e.name) (hne : e.name ≠ [])
    (hlim : (blocks.map List.length).sum ≤ limit) :
    e ∈ search_fuzzy blocks e.name root limit := by
  have hql : trimChars e.name ≠ [] := by
    rw [htrim]
    exact hne
  have hlim0 : ¬limit = 0 := by
    have hj : j < blk.length := (List.get?_eq_some.mp he).1
    have hmem : blk ∈ blocks := List.get?_mem hblk
    have hmem2 : blk.length ∈ blocks.map List.length :=
      List.mem_map_of_mem List.length hmem
    have hsum := List.le_sum_of_mem hmem2
    omega
  have hq_is : (fuzzy_score (lowerStr e.name) e.name (lowerStr e.name)).isSome = true :=
    (fuzzy_score_lower_isSome_iff e.name e.name).mpr (List.Sublist.refl _)
  obtain ⟨score, hsc⟩ := Option.isSome_iff_exists.mp hq_is
  have hsc2 : fuzzy_score (lowerStr (trimChars e.name)) e.name e.name_lowercase =
      some score := by
    rw [htrim, hlc]
    exact hsc
  obtain ⟨idxv, hkmem⟩ :=
    allKeys_mem (lowerStr (trimChars e.name)) root blocks 0 0 bi j blk e score
      hblk he hroot hsc2
  rw [Nat.zero_add] at hkmem
  have hkslen : (allKeys (lowerStr (trimChars e.name)) root blocks 0 0).length ≤ limit :=
    le_trans (allKeys_length_le (lowerStr (trimChars e.name)) root blocks 0 0) hlim
  have hkin : (score, -(e.name.length : Int), -((idxv : Nat) : Int), bi, j) ∈
      searchKeys blocks e.name root limit := by
    unfold searchKeys
    rw [if_neg hlim0, if_neg hql, heapFold_eq_trim,
      trimTo_of_le (le_trans
        (le_of_eq (List.perm_insertionSort KeyLe _).length_eq) hkslen)]
    refine ((List.perm_insertionSort KeyGe _).mem_iff).mpr ?_
    exact ((List.perm_insertionSort KeyLe _).mem_iff).mpr hkmem
  have hAt : entryAt blocks (score, -(e.name.length : Int), -((idxv : Nat) : Int), bi, j)
      = e := entryAt_of_get hblk he
  unfold search_fuzzy
  rw [if_neg hlim0, if_neg hql]
  exact List.mem_map.mpr
    ⟨(score, -(e.name.length : Int), -((idxv : Nat) : Int), bi, j), hkin, hAt⟩

/-- **C8, counterexample to the claim as stated.** With limit 1 the index
containing `a_b` (score 53 on query `ab`) and `ab` (score 48), queried with
the exact name `ab` and scope `none`, does *not* return the entry named `ab`:
the heap of capacity 1 keeps only the higher-scoring `a_b`. -/
theorem C8_counterexample :
    mk_entry ('a' :: 'b' :: []) [] ∉
      search_fuzzy [[mk_entry ('a' :: '_' :: 'b' :: []) [], mk_entry ('a' :: 'b' :: []) []]]
        ('a' :: 'b' :: []) none 1 := by
  decide

/-- Witness for the amended C8: one indexed entry `ab`, queried with its
exact name, limit equal to the index size. -/
theorem C8_witness :
    mk_entry ('a' :: 'b' :: []) [] ∈
      search_fuzzy [[mk_entry ('a' :: 'b' :: []) []]] ('a' :: 'b' :: []) none 1 :=
  C8_exact_name_recall [[mk_entry ('a' :: 'b' :: []) []]] none 1 0 0
    [mk_entry ('a' :: 'b' :: []) []] (mk_entry ('a' :: 'b' :: []) [])
    (by decide) (by decide) (by decide) (by decide) (by decide) (by decide) (by decide)

/-- **C10.** A query consisting entirely of whitespace, with a positive
limit, behaves exactly as the empty query: after trimming no subsequence
filtering or scoring runs, and the root-filtered entries are returned in
indexing order up to the limit. -/
theorem C10_whitespace_query (blocks : List (List SymbolEntry)) (query : List Char)
    (root : Option (List String)) (limit : Nat)
    (hws : ∀ c ∈ query, isWsChar c = true) (hlim : 0 < limit) :
    search_fuzzy blocks query root limit =
      (List.filter (rootOk root) blocks.flatten).take limit ∧
    search_fuzzy blocks query root limit = search_fuzzy blocks [] root limit := by
  have ht : trimChars query = [] := trimChars_all_ws hws
  have h0 : ¬limit = 0 := by omega
  unfold search_fuzzy
  rw [if_neg h0, if_pos ht, if_neg h0, if_pos (show trimChars [] = [] from rfl)]
  exact ⟨rfl, rfl⟩

/-- Witness for C10: a single-space query over a one-entry index. -/
theorem C10_witness :
    (∀ c ∈ (' ' :: []), isWsChar c = true) ∧ 0 < 1 ∧
    (search_fuzzy [[mk_entry ('a' :: []) []]] (' ' :: []) none 1 =
      (List.filter (rootOk none) [[mk_entry ('a' :: []) []]].flatten).take 1 ∧
    search_fuzzy [[mk_entry ('a' :: []) []]] (' ' :: []) none 1 =
      search_fuzzy [[mk_entry ('a' :: []) []]] [] none 1) :=
  ⟨by decide, by decide,
    C10_whitespace_query [[mk_entry ('a' :: []) []]] (' ' :: []) none 1
      (by decide) (by decide)⟩

/-! ## Syntax trees and the parse cache (src/state.rs)

A tree-sitter node is modelled by its kind, its named-ness, its byte range,
and its children, each carried with its optional field label.  The parser
engine (`Parser::parse`, an external capability) is a function parameter
returning `Option TNode`; time (`Instant`) is a `Nat` instant, with
`edited_at.elapsed() = now - edited_at` on the monotonic clock. -/

inductive TNode where
  | mk (kind : String) (named : Bool) (startByte endByte : Nat)
      (children : List (Option String × TNode))

def TNode.kind : TNode → String
  | .mk k _ _ _ _ => k

def TNode.named : TNode → Bool
  | .mk _ nm _ _ _ => nm

def TNode.startByte : TNode → Nat
  | .mk _ _ s _ _ => s

def TNode.endByte : TNode → Nat
  | .mk _ _ _ e _ => e

def TNode.children : TNode → List (Option String × TNode)
  | .mk _ _ _ _ cs => cs

/-- Per-document state: text snapshot, cached tree, edit/parse instants
(`DocState`, src/state.rs). -/
structure DocState where
  text : List Char
  tree : Option TNode
  last_edit : Nat
  last_parse : Nat

/-- Model of `DocState::parse_with_debounce` (src/state.rs lines 42-56):

* fresh (`parsed_at >= edited_at`) with a present tree: return unchanged;
* stale but within the debounce window (`edited_at.elapsed() < min_delay`)
  with a present tree: return unchanged;
* otherwise run the engine, store its result in `tree` (unconditionally —
  `*self.tree.write() = tree;`), and stamp `last_parse`. -/
def parse_with_debounce (engine : List Char → Option TNode) (now min_delay : Nat)
    (st : DocState) : DocState :=
  if st.last_edit ≤ st.last_parse ∧ st.tree.isSome then st
  else if now - st.last_edit < min_delay ∧ st.tree.isSome then st
  else { st with tree := engine st.text, last_parse := now }

theorem parse_with_debounce_cases (engine : List Char → Option TNode)
    (now min_delay : Nat) (st : DocState) :
    (st.tree.isSome = true ∧ st.last_edit ≤ st.last_parse →
      parse_with_debounce engine now min_delay st = st) ∧
    (¬(st.tree.isSome = true ∧ st.last_edit ≤ st.last_parse) →
      (min_delay ≤ now - st.last_edit ∨ st.tree = none →
        parse_with_debounce engine now min_delay st =
          { st with tree := engine st.text, last_parse := now }) ∧
      (now - st.last_edit < min_delay ∧ st.tree ≠ none →
        parse_with_debounce engine now min_delay st = st)) := by
  unfold parse_with_debounce
  refine ⟨?_, ?_⟩
  · intro h
    rw [if_pos ⟨h.2, h.1⟩]
  · intro hstale
    constructor
    · intro hgo
      have h1 : ¬(st.last_edit ≤ st.last_parse ∧ st.tree.isSome = true) := by
        intro h
        exact hstale ⟨h.2, h.1⟩
      rw [if_neg h1]
      have h2 : ¬(now - st.last_edit < min_delay ∧ st.tree.isSome = true) := by
        intro h
        rcases hgo with hd | hn
        · omega
        · rw [hn] at h
          exact absurd h.2 (by simp)
      rw [if_neg h2]
    · intro hkeep
      have h1 : ¬(st.last_edit ≤ st.last_parse ∧ st.tree.isSome = true) := by
        intro h
        exact hstale ⟨h.2, h.1⟩
      rw [if_neg h1]
      have h2 : st.tree.isSome = true := by
        cases htree : st.tree with
        | none => exact absurd htree hkeep.2
        | some t => rfl
      rw [if_pos ⟨hkeep.1, h2⟩]

/-- **C4.** The debounce policy: a fresh cached tree is reused without
reparsing; when stale, a reparse happens exactly when the time since the last
edit reaches the debounce interval or no tree exists yet; otherwise the old
state (and tree) is served unchanged. -/
theorem C4_debounce_policy (engine : List Char → Option TNode) (now min_delay : Nat)
    (st : DocState) :
    (st.tree.isSome = true ∧ st.last_edit ≤ st.last_parse →
      parse_with_debounce engine now min_delay st = st) ∧
    (¬(st.tree.isSome = true ∧ st.last_edit ≤ st.last_parse) →
      (min_delay ≤ now - st.last_edit ∨ st.tree = none →
        parse_with_debounce engine now min_delay st =
          { st with tree := engine st.text, last_parse := now }) ∧
      (now - st.last_edit < min_delay ∧ st.tree ≠ none →
        parse_with_debounce engine now min_delay st = st)) :=
  parse_with_debounce_cases engine now min_delay st

/-- Witness for C4: a stale document with no tree reparses immediately even
inside the debounce window. -/
theorem C4_witness :
    parse_with_debounce (fun _ => none) 10 5
        { text := ('x' :: []), tree := none, last_edit := 10, last_parse := 0 } =
      { text := ('x' :: []), tree := none, last_edit := 10, last_parse := 10 } :=
  ((C4_debounce_policy (fun _ => none) 10 5
      { text := ('x' :: []), tree := none, last_edit := 10, last_parse := 0 }).2
    (by decide)).1 (Or.inr rfl)

/-- **C1 (amended).** When a reparse actually runs (the state is stale and
the debounce gate passes) and the engine returns nothing, the tree field is
overwritten with that result — an existing tree is cleared to `none` — while
the last-parse timestamp still advances to the parse instant.  (The original
claim, that the previous tree is retained, is refuted by
`C1_counterexample`: the source stores the engine result unconditionally,
`*self.tree.write() = tree;`.) -/
theorem C1_parse_failure_clears_tree (engine : List Char → Option TNode)
    (now min_delay : Nat) (st : DocState) (hfail : engine st.text = none)
    (hstale : ¬(st.tree.isSome = true ∧ st.last_edit ≤ st.last_parse))
    (hdeb : min_delay ≤ now - st.last_edit ∨ st.tree = none) :
    (parse_with_debounce engine now min_delay st).tree = none ∧
    (parse_with_debounce engine now min_delay st).last_parse = now := by
  have h := ((parse_with_debounce_cases engine now min_delay st).2 hstale).1 hdeb
  rw [h, hfail]
  exact ⟨rfl, rfl⟩

/-- **C1, counterexample to the claim as stated.**  A state holding a cached
tree, stale and past the debounce window, parsed with an engine that returns
nothing: the tree field does *not* retain its previous value — it is cleared
to `none`. -/
theorem C1_counterexample :
    ¬((parse_with_debounce (fun _ => none) 1000 1
        { text := ('x' :: []), tree := some (TNode.mk "source_file" true 0 1 []),
          last_edit := 10, last_parse := 0 }).tree =
      ({ text := ('x' :: []), tree := some (TNode.mk "source_file" true 0 1 []),
          last_edit := 10, last_parse := 0 } : DocState).tree) := by
  intro h
  exact Option.noConfusion h

/-- Witness for the amended C1 at the same concrete state. -/
theorem C1_witness :
    (parse_with_debounce (fun _ => none) 1000 1
        { text := ('x' :: []), tree := some (TNode.mk "source_file" true 0 1 []),
          last_edit := 10, last_parse := 0 }).tree = none ∧
    (parse_with_debounce (fun _ => none) 1000 1
        { text := ('x' :: []), tree := some (TNode.mk "source_file" true 0 1 []),
          last_edit := 10, last_parse := 0 }).last_parse = 1000 :=
  C1_parse_failure_clears_tree (fun _ => none) 1000 1
    { text := ('x' :: []), tree := some (TNode.mk "source_file" true 0 1 []),
      last_edit := 10, last_parse := 0 } rfl
    (by decide) (Or.inl (by decide))

/-! ## The indexer's depot filter (src/state.rs, `index_workspace`)

The walk's per-file decision, for a file whose path has the given list of
normal components and the given extension: only `.jl` files are read, and a
path under a depot layout (any component equal to `packages` **or** `dev`)
is skipped unless some component equals `src`.  (Prefix/root path components
can never equal these literals, so only normal components are modelled.) -/

def depotSkip (comps : List String) : Bool :=
  (comps.any (fun s => decide (s = "packages" ∨ s = "dev"))) &&
    !(comps.any (fun s => decide (s = "src")))

def walkIncludes (comps : List String) (ext : Option String) : Bool :=
  match ext with
  | some e => if e = "jl" then !(depotSkip comps) else false
  | none => false

/-- **C9 (amended).** A `.jl` file under either dependency-storage layout
(`packages` — published package cache — or `dev` — development checkout)
lacking a conventional `src` component is skipped; a depot file with a `src`
component, or any file outside the depot layouts, is included.  (The original
claim, that a development-checkout file without `src` is included, is refuted
by `C9_counterexample`: the source applies the same filter to `dev` as to
`packages` — `s == "packages" || s == "dev"`.) -/
theorem C9_depot_filter (comps : List String) :
    (("packages" ∈ comps ∨ "dev" ∈ comps) → "src" ∉ comps →
      walkIncludes comps (some "jl") = false) ∧
    (("src" ∈ comps ∨ ("packages" ∉ comps ∧ "dev" ∉ comps)) →
      walkIncludes comps (some "jl") = true) := by
  constructor
  · intro hd hs
    have hB : comps.any (fun s => decide (s = "src")) = false := by
      rw [List.any_eq_false]
      intro x hx
      simp only [decide_eq_true_eq]
      intro hxe
      exact hs (hxe ▸ hx)
    have hA : comps.any (fun s => decide (s = "packages" ∨ s = "dev")) = true := by
      rw [List.any_eq_true]
      rcases hd with h | h
      · exact ⟨"packages", h, by decide⟩
      · exact ⟨"dev", h, by decide⟩
    simp only [walkIncludes, depotSkip, hA, hB, Bool.not_false, Bool.and_true,
      Bool.not_true, eq_self_iff_true, if_true]
  · intro hin
    rcases hin with h | ⟨hp, hd⟩
    · have hB : comps.any (fun s => decide (s = "src")) = true := by
        rw [List.any_eq_true]
        exact ⟨"src", h, by decide⟩
      simp only [walkIncludes, depotSkip, hB, Bool.not_true, Bool.and_false,
        Bool.not_false, eq_self_iff_true, if_true]
    · have hA : comps.any (fun s => decide (s = "packages" ∨ s = "dev")) = false := by
        rw [List.any_eq_false]
        intro x hx
        simp only [decide_eq_true_eq]
        intro hor
        rcases hor with rfl | rfl
        · exact hp hx
        · exact hd hx
      simp only [walkIncludes, depotSkip, hA, Bool.false_and, Bool.not_false,
        eq_self_iff_true, if_true]

/-- **C9, counterexample to the claim as stated.**  The published-package
file without `src` is indeed skipped (first conjunct, consistent with the
claim), but the otherwise-identical development-checkout file is *also*
skipped (second conjunct), where the claim asserts it is included. -/
theorem C9_counterexample :
    walkIncludes ("home" :: ".julia" :: "packages" :: "Foo" :: "abc" :: "make.jl" :: [])
        (some "jl") = false ∧
    walkIncludes ("home" :: ".julia" :: "dev" :: "Foo" :: "make.jl" :: [])
        (some "jl") = false := by
  decide

/-- Witness for the amended C9. -/
theorem C9_witness :
    walkIncludes ("h" :: "packages" :: "Foo" :: "x.jl" :: []) (some "jl") = false ∧
    walkIncludes ("h" :: "dev" :: "Foo" :: "src" :: "x.jl" :: []) (some "jl") = true :=
  ⟨(C9_depot_filter ("h" :: "packages" :: "Foo" :: "x.jl" :: [])).1
      (Or.inl (by decide)) (by decide),
    (C9_depot_filter ("h" :: "dev" :: "Foo" :: "src" :: "x.jl" :: [])).2
      (Or.inl (by decide))⟩

/-! ## Symbol extraction (src/symbols.rs)

Kinds, the classification table, name resolution and the tree walk.  The
`DocumentSymbol` model records the byte offsets underlying `range` and
`selection_range`: the Rust fields store `LineIndex::range_of` of exactly
these offsets, a monotone (line, column) image, and the nesting pass and the
claims operate on the byte offsets. -/

inductive SymbolKind where
  | module
  | function
  | structKind
  | classKind
  | typeParameter
  | constant
deriving DecidableEq, Repr

/-- Model of `kind_for` (src/symbols.rs): the classification table. -/
def kind_for (node_type : String) : Option SymbolKind :=
  if node_type = "module_definition" ∨ node_type = "bare_module_definition" then
    some SymbolKind.module
  else if node_type = "function_definition" ∨ node_type = "short_function_definition" then
    some SymbolKind.function
  else if node_type = "macro_definition" then some SymbolKind.function
  else if node_type = "struct_definition" ∨ node_type = "primitive_type_definition" then
    some SymbolKind.structKind
  else if node_type = "abstract_definition" then some SymbolKind.classKind
  else if node_type = "type_alias" then some SymbolKind.typeParameter
  else if node_type = "const_statement" then some SymbolKind.constant
  else none

/-- Model of `is_name_kind` (src/symbols.rs). -/
def is_name_kind (k : String) : Bool :=
  k = "identifier" ∨ k = "macro_identifier" ∨ k = "type_identifier" ∨
  k = "scoped_identifier" ∨ k = "field_identifier" ∨ k = "operator" ∨
  k = "property_identifier"

/-- `Node::child_by_field_name`: the first child carrying the field label. -/
def TNode.child_by_field_name (n : TNode) (f : String) : Option TNode :=
  (n.children.find? (fun c => decide (c.1 = some f))).map Prod.snd

/-! Model of `find_named_descendant_by` (src/symbols.rs): an explicit-stack
depth-first search that tests each named node and expands named children
leftmost-first; the stack discipline is exactly pre-order, modelled by the
mutual recursion below. -/
mutual
def findNamed (pred : TNode → Bool) : TNode → Option TNode
  | .mk k nm s e cs =>
    if nm ∧ pred (.mk k nm s e cs) then some (.mk k nm s e cs)
    else findNamedChildren pred cs

def findNamedChildren (pred : TNode → Bool) : List (Option String × TNode) → Option TNode
  | [] => none
  | (_, c) :: rest =>
    if c.named then
      match findNamed pred c with
      | some r => some r
      | none => findNamedChildren pred rest
    else findNamedChildren pred rest
end

/-- Model of `name_node` (src/symbols.rs): explicit `name` field, else the
first identifier-like named descendant under `left`, else under `signature`,
else anywhere under the node. -/
def name_node (node : TNode) : Option TNode :=
  match node.child_by_field_name "name" with
  | some n => some n
  | none =>
    match (node.child_by_field_name "left").bind
        (findNamed (fun m => is_name_kind m.kind)) with
    | some found => some found
    | none =>
      match (node.child_by_field_name "signature").bind
          (findNamed (fun m => is_name_kind m.kind)) with
      | some found => some found
      | none => findNamed (fun m => is_name_kind m.kind) node

/-- A (line, character) position. -/
abbrev Pos : Type := Nat × Nat

/-- `LineIndex::new`: 0 plus the position after every newline. -/
def lineStarts (text : List Char) : List Nat :=
  0 :: text.enum.filterMap (fun p => if p.2 = '\n' then some (p.1 + 1) else none)

/-- `LineIndex::to_pos`: the index of the last line start at or before `idx`
(the `starts` list is strictly increasing and begins with 0, so
`binary_search`'s `Ok(i)` and `Err(i) → i-1` cases both yield exactly the
count of starts `≤ idx`, minus one), and the column offset from it. -/
def toPos (starts : List Nat) (idx : Nat) : Pos :=
  ((starts.countP (fun s2 => decide (s2 ≤ idx))) - 1,
    idx - starts.getD ((starts.countP (fun s2 => decide (s2 ≤ idx))) - 1) 0)

/-- `LineIndex::range_of`. -/
def range_of (starts : List Nat) (s e : Nat) : Pos × Pos :=
  (toPos starts s, toPos starts e)

/-- The outline node (`DocumentSymbol`): name, kind, byte offsets of the
full range and of the name-token range, and the optional child list
(`children: Option<Vec<_>>`, `None` until the first child is attached via
`get_or_insert`). -/
structure DocumentSymbol where
  name : List Char
  kind : SymbolKind
  rangeStart : Nat
  rangeStop : Nat
  selStart : Nat
  selStop : Nat
  children : Option (List DocumentSymbol)

/-- `make_document_symbol`: children start out absent. -/
def make_document_symbol (name : List Char) (kind : SymbolKind)
    (rangeStart rangeStop selStart selStop : Nat) : DocumentSymbol :=
  { name, kind, rangeStart, rangeStop, selStart, selStop, children := none }

/-- The build-time record (`Pending`): byte start/end plus the constructed
symbol (`end` is a reserved word in Lean, hence `stop`). -/
structure Pending where
  start : Nat
  stop : Nat
  sym : DocumentSymbol

/-- `text[name_start..name_end]`. -/
def sliceChars (text : List Char) (s e : Nat) : List Char :=
  (text.drop s).take (e - s)

/-! Model of `collect_document_symbols` (src/symbols.rs): the cursor loop
(process node, descend to first child, then next sibling) is pre-order over
the tree; each classified node with a resolvable name pushes one `Pending`,
a classified node without one is dropped. -/
mutual
def collect_document_symbols (text : List Char) : TNode → List Pending
  | .mk k nm s e cs =>
    (match kind_for k with
     | some kind =>
       match name_node (.mk k nm s e cs) with
       | some nmNode =>
         [{ start := s, stop := e,
            sym := make_document_symbol
              (sliceChars text nmNode.startByte nmNode.endByte) kind
              s e nmNode.startByte nmNode.endByte }]
       | none => []
     | none => []) ++ collect_document_symbols_list text cs

def collect_document_symbols_list (text : List Char) :
    List (Option String × TNode) → List Pending
  | [] => []
  | (_, c) :: rest =>
    collect_document_symbols text c ++ collect_document_symbols_list text rest
end

/-! ### The nesting-reconstruction pass (src/symbols.rs lines 157-192)

The Rust code sorts the pending records by `(start, end)` and scans them with
an explicit stack: before pushing a record, it pops every stack-top record
whose `end ≤ start` of the new record, attaching each popped record as a
child of the new stack top (or to the root list when the stack empties); the
remaining stack is drained the same way at the end.

Because a pop only compares the (immutable) `stop` fields, the records popped
at one scan step are exactly the maximal prefix of the stack with
`stop ≤ start` (`takeWhile`), and the cascade of attachments folds each
popped record into the one below it (`combine`); only the bottom-most popped
record can reach the root list, when the whole stack empties.  All functions
are structurally recursive, so the model evaluates by reduction. -/

/-- `parent.sym.children.get_or_insert(Vec::new()).push(finished.sym)`. -/
def addChild (parent : DocumentSymbol) (c : DocumentSymbol) : DocumentSymbol :=
  { parent with children := some (parent.children.getD [] ++ [c]) }

def addChildP (p : Pending) (c : DocumentSymbol) : Pending :=
  { p with sym := addChild p.sym c }

/-- Fold a finished symbol into the popped records above it, bottom-up:
`combine fin [t1, …, tn]` attaches `fin` to `t1`, the result to `t2`, …,
returning the fully combined symbol of the last record. -/
def combine (fin : DocumentSymbol) : List Pending → DocumentSymbol
  | [] => fin
  | t :: ts => combine (addChild t.sym fin) ts

/-- One `while`-pop phase of the scan at a new record starting at `s`. -/
def popLoop (s : Nat) (stack : List Pending) (root : List DocumentSymbol) :
    List Pending × List DocumentSymbol :=
  match stack.takeWhile (fun t => decide (t.stop ≤ s)) with
  | [] => (stack, root)
  | t :: ts =>
    match stack.dropWhile (fun t => decide (t.stop ≤ s)) with
    | p :: rr => (addChildP p (combine t.sym ts) :: rr, root)
    | [] => ([], root ++ [combine t.sym ts])

/-- The final drain: every remaining record folds into the one below it and
the bottom record joins the root list. -/
def drainStack (stack : List Pending) (root : List DocumentSymbol) :
    List DocumentSymbol :=
  match stack with
  | [] => root
  | t :: ts => root ++ [combine t.sym ts]

/-- The scan over the sorted records. -/
def scanItems : List Pending → List Pending → List DocumentSymbol → List DocumentSymbol
  | [], stack, root => drainStack stack root
  | it :: rest, stack, root =>
    scanItems rest (it :: (popLoop it.start stack root).1) (popLoop it.start stack root).2

/-- The sort comparator: `start` ascending, `end` ascending as tie-break. -/
def PendLe (a b : Pending) : Prop :=
  a.start < b.start ∨ (a.start = b.start ∧ a.stop ≤ b.stop)

instance : DecidableRel PendLe := fun a b =>
  decidable_of_iff (a.start < b.start ∨ (a.start = b.start ∧ a.stop ≤ b.stop)) Iff.rfl

instance : IsTotal Pending PendLe := by
  constructor
  intro a b
  unfold PendLe
  omega

instance : IsTrans Pending PendLe := by
  constructor
  intro a b c hab hbc
  unfold PendLe at *
  omega

/-- Sort (stable, like `sort_by`) and scan. -/
def nest_pending (out : List Pending) : List DocumentSymbol :=
  scanItems (List.insertionSort PendLe out) [] []

/-- Model of `extract_document_symbols_with_cache` (src/symbols.rs): run the
debounced parse, collect pending records from the current tree (none ⇒ no
records), then reconstruct the nesting. -/
def extract_document_symbols_with_cache (engine : List Char → Option TNode)
    (now min_delay : Nat) (doc : DocState) : List DocumentSymbol :=
  nest_pending
    (match (parse_with_debounce engine now min_delay doc).tree with
     | some t => collect_document_symbols (parse_with_debounce engine now min_delay doc).text t
     | none => [])

/-! ## Workspace symbols and heuristic synthesis (src/symbols.rs) -/

/-- The flat workspace record (`SymbolInformation`): name, kind, location
(uri and a (line, character) range). -/
structure SymbolInformation where
  name : List Char
  kind : SymbolKind
  uri : String
  rangeStart : Pos
  rangeStop : Pos
deriving DecidableEq, Repr

/-! Model of `collect_workspace_symbols`: the same pre-order walk and
classification/naming as the document pass, emitting flat records with
positions computed by `LineIndex::range_of`. -/
mutual
def collect_workspace_symbols (text : List Char) (starts : List Nat) (uri : String) :
    TNode → List SymbolInformation
  | .mk k nm s e cs =>
    (match kind_for k with
     | some kind =>
       match name_node (.mk k nm s e cs) with
       | some nmNode =>
         [{ name := sliceChars text nmNode.startByte nmNode.endByte, kind := kind,
            uri := uri, rangeStart := (range_of starts s e).1,
            rangeStop := (range_of starts s e).2 }]
       | none => []
     | none => []) ++ collect_workspace_symbols_list text starts uri cs

def collect_workspace_symbols_list (text : List Char) (starts : List Nat) (uri : String) :
    List (Option String × TNode) → List SymbolInformation
  | [] => []
  | (_, c) :: rest =>
    collect_workspace_symbols text starts uri c ++
      collect_workspace_symbols_list text starts uri rest
end

/-- `line_col_of_match` (src/symbols.rs): count newlines strictly before the
byte index; the column counts from just past the last such newline. -/
def line_col_of_match (text : List Char) (b : Nat) : Pos :=
  ((text.enum.filterMap
      (fun p => if p.2 = '\n' ∧ p.1 < b then some p.1 else none)).length,
    b - (match (text.enum.filterMap
        (fun p => if p.2 = '\n' ∧ p.1 < b then some p.1 else none)).getLast? with
      | some i => i + 1
      | none => 0))

/-! ### The regex passes

`Regex::captures_iter` scans left to right, attempting the pattern at each
position and resuming after the end of every match (matches never overlap).
The patterns below are deterministic once a start position is fixed: each
alternative-free piece (`\s*`, a literal, `\s+`, `[A-Za-z][A-Za-z0-9_]*`,
`!?`, one delimiter character) is matched greedily, and greediness cannot
lose a match because every follower class is disjoint from the class being
repeated (`@`, `f` are not whitespace; the delimiter class `[\s,\]\)]` shares
no character with `[A-Za-z0-9_]` or `!`).  The scanners recurse on a fuel
bounded by the text length; every step consumes at least one character, so
the fuel (initialised to the scanned list's length plus one) never runs out.
The regex class `\s` is modelled by its ASCII core `isWsChar`. -/

/-- Greedy `\s*`: the count of dropped whitespace and the rest. -/
def dropWsCount : List Char → Nat × List Char
  | [] => (0, [])
  | c :: rest =>
    if isWsChar c then ((dropWsCount rest).1 + 1, (dropWsCount rest).2)
    else (0, c :: rest)

/-- Match a literal prefix, returning the rest. -/
def matchLit : List Char → List Char → Option (List Char)
  | [], l => some l
  | _ :: _, [] => none
  | c :: cs, x :: xs => if x = c then matchLit cs xs else none

def isIdentStart (c : Char) : Bool :=
  ('A' ≤ c ∧ c ≤ 'Z') ∨ ('a' ≤ c ∧ c ≤ 'z')

def isIdentChar (c : Char) : Bool :=
  isIdentStart c ∨ ('0' ≤ c ∧ c ≤ '9') ∨ c = '_'

/-- Greedy `[A-Za-z][A-Za-z0-9_]*`. -/
def takeIdent : List Char → Option (List Char × List Char)
  | [] => none
  | c :: rest =>
    if isIdentStart c then some (c :: rest.takeWhile isIdentChar, rest.dropWhile isIdentChar)
    else none

/-- `^\s*@userplot\s+([A-Za-z][A-Za-z0-9_]*)` at one position: returns the
captured name, the capture's byte offset, and the rest of the text after the
match. -/
def tryUserplotAt (l : List Char) (pos : Nat) : Option (List Char × Nat × List Char) :=
  match matchLit ('@' :: 'u' :: 's' :: 'e' :: 'r' :: 'p' :: 'l' :: 'o' :: 't' :: [])
      (dropWsCount l).2 with
  | none => none
  | some l2 =>
    if (dropWsCount l2).1 = 0 then none
    else
      match takeIdent (dropWsCount l2).2 with
      | none => none
      | some (name, l4) =>
        some (name, pos + (dropWsCount l).1 + 9 + (dropWsCount l2).1, l4)

/-- `^\s*@recipe\s+function\s+([A-Za-z][A-Za-z0-9_]*)\b` at one position
(the trailing `\b` is automatic after a maximal identifier). -/
def tryRecipeAt (l : List Char) (pos : Nat) : Option (List Char × Nat × List Char) :=
  match matchLit ('@' :: 'r' :: 'e' :: 'c' :: 'i' :: 'p' :: 'e' :: []) (dropWsCount l).2 with
  | none => none
  | some l2 =>
    if (dropWsCount l2).1 = 0 then none
    else
      match matchLit ('f' :: 'u' :: 'n' :: 'c' :: 't' :: 'i' :: 'o' :: 'n' :: [])
          (dropWsCount l2).2 with
      | none => none
      | some l3 =>
        if (dropWsCount l3).1 = 0 then none
        else
          match takeIdent (dropWsCount l3).2 with
          | none => none
          | some (name, l5) =>
            some (name, pos + (dropWsCount l).1 + 7 + (dropWsCount l2).1 + 8 +
              (dropWsCount l3).1, l5)

/-- Scan a `(?m)^`-anchored pattern: attempt the matcher only at line-start
positions (offset 0 or just after a newline); resume after each match (the
last matched character is an identifier character, never a newline, so the
resume position is not a line start). -/
def scanAnchored (m : List Char → Nat → Option (List Char × Nat × List Char)) :
    Nat → List Char → Nat → Bool → List (List Char × Nat)
  | 0, _, _, _ => []
  | _ + 1, [], _, _ => []
  | fuel + 1, c :: rest, pos, atLS =>
    if atLS then
      match m (c :: rest) pos with
      | some (name, cap, r) =>
        (name, cap) :: scanAnchored m fuel r (pos + ((c :: rest).length - r.length)) false
      | none => scanAnchored m fuel rest (pos + 1) (decide (c = '\n'))
    else scanAnchored m fuel rest (pos + 1) (decide (c = '\n'))

/-- Model of `synthesize_macro_symbols` (src/symbols.rs): the `@userplot`
captures then the `@recipe function` captures, each at its
`line_col_of_match` position with a one-character range. -/
def synthesize_macro_symbols (text : List Char) (uri : String) : List SymbolInformation :=
  ((scanAnchored tryUserplotAt (text.length + 1) text 0 true).map (fun p =>
    { name := p.1, kind := SymbolKind.function, uri := uri,
      rangeStart := line_col_of_match text p.2,
      rangeStop := ((line_col_of_match text p.2).1, (line_col_of_match text p.2).2 + 1) }))
  ++ ((scanAnchored tryRecipeAt (text.length + 1) text 0 true).map (fun p =>
    { name := p.1, kind := SymbolKind.function, uri := uri,
      rangeStart := line_col_of_match text p.2,
      rangeStop := ((line_col_of_match text p.2).1, (line_col_of_match text p.2).2 + 1) }))

/-- Non-overlapping occurrences of a literal (`Regex::find_iter` on the
alternation-free anchor pattern `@shorthands`). -/
def scanLiteral (lit : List Char) : Nat → List Char → Nat → List Nat
  | 0, _, _ => []
  | _ + 1, [], _ => []
  | fuel + 1, c :: rest, pos =>
    match matchLit lit (c :: rest) with
    | some r => pos :: scanLiteral lit fuel r (pos + lit.length)
    | none => scanLiteral lit fuel rest (pos + 1)

def isShortDelim (c : Char) : Bool :=
  isWsChar c ∨ c = ',' ∨ c = ']' ∨ c = ')'

/-- `[:]?([A-Za-z][A-Za-z0-9_]*!?)[\s,\]\)]` at one position.  When the
position starts with `:` the colon is consumed (a retry without it would
have to start an identifier with `:`, which fails); the optional `!` is
kept only when the required delimiter follows it (`!` itself is not a
delimiter, so dropping it instead can never succeed). -/
def tryShortCore (l : List Char) (capPos : Nat) : Option (List Char × Nat × List Char) :=
  match takeIdent l with
  | none => none
  | some (name, r1) =>
    match r1 with
    | '!' :: d :: r3 =>
      if isShortDelim d then some (name ++ ('!' :: []), capPos, r3) else none
    | d :: r3 => if isShortDelim d then some (name, capPos, r3) else none
    | [] => none

def tryShortNameAt (l : List Char) (pos : Nat) : Option (List Char × Nat × List Char) :=
  match l with
  | ':' :: r0 => tryShortCore r0 (pos + 1)
  | _ => tryShortCore l pos

/-- Scan the shorthand-name pattern over a window (not line-anchored). -/
def scanShortNames : Nat → List Char → Nat → List (List Char × Nat)
  | 0, _, _ => []
  | _ + 1, [], _ => []
  | fuel + 1, c :: rest, pos =>
    match tryShortNameAt (c :: rest) pos with
    | some (name, cap, r) =>
      (name, cap) :: scanShortNames fuel r (pos + ((c :: rest).length - r.length))
    | none => scanShortNames fuel rest (pos + 1)

/-- Model of `synthesize_shorthand_symbols` (src/symbols.rs): for each
`@shorthands` anchor, scan a 600-character lookahead window (starting at the
anchor itself) for delimited bare identifiers. -/
def synthesize_shorthand_symbols (text : List Char) (uri : String) :
    List SymbolInformation :=
  (scanLiteral
      ('@' :: 's' :: 'h' :: 'o' :: 'r' :: 't' :: 'h' :: 'a' :: 'n' :: 'd' :: 's' :: [])
      (text.length + 1) text 0).flatMap (fun start =>
    (scanShortNames ((text.drop start).take 600).length ((text.drop start).take 600) 0).map
      (fun p =>
        { name := p.1, kind := SymbolKind.function, uri := uri,
          rangeStart := line_col_of_match text (start + p.2),
          rangeStop := ((line_col_of_match text (start + p.2)).1,
            (line_col_of_match text (start + p.2)).2 + 1) }))

/-- Model of `extract_workspace_symbols_with_cache` (src/symbols.rs): run the
debounced parse; collect flat records from the current tree if any; always
append both heuristic synthesis passes over the raw text. -/
def extract_workspace_symbols_with_cache (engine : List Char → Option TNode)
    (now min_delay : Nat) (doc : DocState) (uri : String) : List SymbolInformation :=
  (match (parse_with_debounce engine now min_delay doc).tree with
   | some t =>
     collect_workspace_symbols (parse_with_debounce engine now min_delay doc).text
       (lineStarts (parse_with_debounce engine now min_delay doc).text) uri t
   | none => []) ++
  synthesize_macro_symbols (parse_with_debounce engine now min_delay doc).text uri ++
  synthesize_shorthand_symbols (parse_with_debounce engine now min_delay doc).text uri

/-! ## C5: extraction under an absent tree -/

theorem parse_text_eq (engine : List Char → Option TNode) (now min_delay : Nat)
    (st : DocState) : (parse_with_debounce engine now min_delay st).text = st.text := by
  unfold parse_with_debounce
  split_ifs <;> rfl

theorem dropWsCount_sublist (l : List Char) : List.Sublist (dropWsCount l).2 l := by
  induction l with
  | nil => exact List.nil_sublist []
  | cons c rest ih =>
    by_cases h : isWsChar c = true
    · have h2 : (dropWsCount (c :: rest)).2 = (dropWsCount rest).2 := by
        simp [dropWsCount, h]
      rw [h2]
      exact ih.cons c
    · have h2 : (dropWsCount (c :: rest)).2 = c :: rest := by
        simp [dropWsCount, h]
      rw [h2]

theorem matchLit_at_none {l : List Char} (h : '@' ∉ l) (cs : List Char) :
    matchLit ('@' :: cs) l = none := by
  cases l with
  | nil => rfl
  | cons x xs =>
    simp only [matchLit]
    rw [if_neg]
    intro hx
    apply h
    rw [← hx]
    exact List.mem_cons_self x xs

theorem tryUserplotAt_none {l : List Char} (h : '@' ∉ l) (pos : Nat) :
    tryUserplotAt l pos = none := by
  unfold tryUserplotAt
  rw [matchLit_at_none (fun hm => h ((dropWsCount_sublist l).subset hm)) _]

theorem tryRecipeAt_none {l : List Char} (h : '@' ∉ l) (pos : Nat) :
    tryRecipeAt l pos = none := by
  unfold tryRecipeAt
  rw [matchLit_at_none (fun hm => h ((dropWsCount_sublist l).subset hm)) _]

theorem scanAnchored_nil (m : List Char → Nat → Option (List Char × Nat × List Char))
    (hm : ∀ l pos, '@' ∉ l → m l pos = none) :
    ∀ (fuel : Nat) (l : List Char) (pos : Nat) (b : Bool), '@' ∉ l →
      scanAnchored m fuel l pos b = [] := by
  intro fuel
  induction fuel with
  | zero => intro l pos b h; rfl
  | succ fuel ih =>
    intro l pos b h
    cases l with
    | nil => rfl
    | cons c rest =>
      have hr : '@' ∉ rest := fun hx => h (List.mem_cons_of_mem c hx)
      cases b with
      | true =>
        simp only [scanAnchored]
        rw [if_pos trivial, hm (c :: rest) pos h]
        exact ih rest (pos + 1) (decide (c = '\n')) hr
      | false =>
        simp only [scanAnchored]
        rw [if_neg (by simp)]
        exact ih rest (pos + 1) (decide (c = '\n')) hr

theorem scanLiteral_nil (cs : List Char) :
    ∀ (fuel : Nat) (l : List Char) (pos : Nat), '@' ∉ l →
      scanLiteral ('@' :: cs) fuel l pos = [] := by
  intro fuel
  induction fuel with
  | zero => intro l pos h; rfl
  | succ fuel ih =>
    intro l pos h
    cases l with
    | nil => rfl
    | cons c rest =>
      have hr : '@' ∉ rest := fun hx => h (List.mem_cons_of_mem c hx)
      simp only [scanLiteral]
      rw [matchLit_at_none h cs]
      exact ih rest (pos + 1) hr

theorem synthesize_macro_nil (text : List Char) (uri : String) (h : '@' ∉ text) :
    synthesize_macro_symbols text uri = [] := by
  unfold synthesize_macro_symbols
  rw [scanAnchored_nil tryUserplotAt (fun l p hl => tryUserplotAt_none hl p)
      (text.length + 1) text 0 true h,
    scanAnchored_nil tryRecipeAt (fun l p hl => tryRecipeAt_none hl p)
      (text.length + 1) text 0 true h]
  rfl

theorem synthesize_shorthand_nil (text : List Char) (uri : String) (h : '@' ∉ text) :
    synthesize_shorthand_symbols text uri = [] := by
  unfold synthesize_shorthand_symbols
  rw [scanLiteral_nil
      ('s' :: 'h' :: 'o' :: 'r' :: 't' :: 'h' :: 'a' :: 'n' :: 'd' :: 's' :: [])
      (text.length + 1) text 0 h]
  rfl

/-- **C5 (amended).** When the cached tree is absent after the parse attempt,
extraction yields no structural symbols: the nested outline is the empty
list, and the flat workspace list consists of exactly the heuristic
text-pattern synthesis entries — in particular it is empty whenever the text
contains no `@` character.  (The original claim, that the workspace list is
always empty, is refuted by `C5_counterexample`: the synthesis passes run
over the raw text regardless of the tree.) -/
theorem C5_absent_tree_extraction (engine : List Char → Option TNode)
    (now min_delay : Nat) (doc : DocState) (uri : String)
    (hnone : (parse_with_debounce engine now min_delay doc).tree = none) :
    extract_document_symbols_with_cache engine now min_delay doc = [] ∧
    extract_workspace_symbols_with_cache engine now min_delay doc uri =
      synthesize_macro_symbols doc.text uri ++
        synthesize_shorthand_symbols doc.text uri ∧
    ('@' ∉ doc.text →
      extract_workspace_symbols_with_cache engine now min_delay doc uri = []) := by
  have htext := parse_text_eq engine now min_delay doc
  refine ⟨?_, ?_, ?_⟩
  · unfold extract_document_symbols_with_cache
    rw [hnone]
    rfl
  · unfold extract_workspace_symbols_with_cache
    rw [hnone, htext]
    rfl
  · intro hat
    unfold extract_workspace_symbols_with_cache
    rw [hnone, htext, synthesize_macro_nil doc.text uri hat,
      synthesize_shorthand_nil doc.text uri hat]
    rfl

/-- **C5, counterexample to the claim as stated.**  A document whose text is
`@userplot A`, with no tree after the parse attempt (the engine returns
nothing): the flat workspace symbol list is *not* empty — the `@userplot`
synthesis pass emits the entry `A`. -/
theorem C5_counterexample :
    ((parse_with_debounce (fun _ => none) 500 1
        { text := "@userplot A".toList, tree := none, last_edit := 10,
          last_parse := 0 }).tree = none) ∧
    extract_workspace_symbols_with_cache (fun _ => none) 500 1
        { text := "@userplot A".toList, tree := none, last_edit := 10,
          last_parse := 0 } "u" ≠ [] := by
  constructor
  · rfl
  · decide

/-- Witness for the amended C5: an `@`-free text with no tree yields empty
outputs on both paths. -/
theorem C5_witness :
    ((parse_with_debounce (fun _ => none) 500 1
        { text := "x".toList, tree := none, last_edit := 10, last_parse := 0 }).tree
      = none) ∧
    (extract_document_symbols_with_cache (fun _ => none) 500 1
        { text := "x".toList, tree := none, last_edit := 10, last_parse := 0 } = [] ∧
      extract_workspace_symbols_with_cache (fun _ => none) 500 1
          { text := "x".toList, tree := none, last_edit := 10, last_parse := 0 } "u" =
        synthesize_macro_symbols "x".toList "u" ++
          synthesize_shorthand_symbols "x".toList "u" ∧
      ('@' ∉ "x".toList →
        extract_workspace_symbols_with_cache (fun _ => none) 500 1
            { text := "x".toList, tree := none, last_edit := 10, last_parse := 0 } "u" =
          [])) :=
  ⟨rfl, C5_absent_tree_extraction (fun _ => none) 500 1
    { text := "x".toList, tree := none, last_edit := 10, last_parse := 0 } "u" rfl⟩

/-! ## C3: the nesting invariant -/

/-- The child list of an outline node (`children.get_or_insert` semantics:
absent means empty). -/
def childList (d : DocumentSymbol) : List DocumentSymbol := d.children.getD []

/-- Non-overlap of two outline nodes' byte ranges. -/
def ndisj (a b : DocumentSymbol) : Prop :=
  a.rangeStop ≤ b.rangeStart ∨ b.rangeStop ≤ a.rangeStart

/-- The nesting invariant of one outline node: every child's byte range lies
inside the node's byte range, the children are pairwise non-overlapping, and
each child satisfies the invariant recursively. -/
inductive Good : DocumentSymbol → Prop
  | intro (d : DocumentSymbol)
      (hb : ∀ c ∈ childList d,
        d.rangeStart ≤ c.rangeStart ∧ c.rangeStop ≤ d.rangeStop)
      (hg : ∀ c ∈ childList d, Good c)
      (hp : List.Pairwise ndisj (childList d)) : Good d

/-- The claim's property of a whole outline: root nodes pairwise
non-overlapping, every node good. -/
def GoodForest (l : List DocumentSymbol) : Prop :=
  List.Pairwise ndisj l ∧ ∀ x ∈ l, Good x

/-- Laminarity condition on two pending records: disjoint, identical, or
strictly nested with distinct start offsets. -/
def okPair (a b : Pending) : Prop :=
  a.stop ≤ b.start ∨ b.stop ≤ a.start ∨ (a.start < b.start ∧ b.stop ≤ a.stop) ∨
  (b.start < a.start ∧ a.stop ≤ b.stop) ∨ (a.start = b.start ∧ a.stop = b.stop)

instance : DecidableRel okPair := fun a b =>
  decidable_of_iff
    (a.stop ≤ b.start ∨ b.stop ≤ a.start ∨ (a.start < b.start ∧ b.stop ≤ a.stop) ∨
      (b.start < a.start ∧ a.stop ≤ b.stop) ∨ (a.start = b.start ∧ a.stop = b.stop))
    Iff.rfl

theorem okPair_symm {a b : Pending} (h : okPair a b) : okPair b a := by
  unfold okPair at *
  omega

/-- `outer` spans `inner`. -/
def containsP (outer inner : Pending) : Prop :=
  outer.start ≤ inner.start ∧ inner.stop ≤ outer.stop

/-- A stack record carries a good symbol whose byte range is the record's. -/
def GoodP (t : Pending) : Prop :=
  Good t.sym ∧ t.sym.rangeStart = t.start ∧ t.sym.rangeStop = t.stop

/-- All current children of a record's symbol end at or before `b`. -/
def cappedP (b : Nat) (t : Pending) : Prop :=
  ∀ c ∈ childList t.sym, c.rangeStop ≤ b

/-- The scan invariant: the stack is a chain of nested, well-formed, good
records whose attached children end before the record above begins, and the
root list is a finished, pairwise-disjoint forest lying entirely before every
stack record. -/
structure SRInv (stack : List Pending) (root : List DocumentSymbol) : Prop where
  wf : ∀ t ∈ stack, t.start ≤ t.stop
  chain : List.Pairwise (fun u l => containsP l u) stack
  good : ∀ t ∈ stack, GoodP t
  caps : List.Chain' (fun u l => cappedP u.start l) stack
  rootDisj : List.Pairwise ndisj root
  rootGood : ∀ r ∈ root, Good r
  rootBelow : ∀ r ∈ root, ∀ t ∈ stack, r.rangeStop ≤ t.start

theorem addChildP_start (p : Pending) (c : DocumentSymbol) :
    (addChildP p c).start = p.start := rfl

theorem addChildP_stop (p : Pending) (c : DocumentSymbol) :
    (addChildP p c).stop = p.stop := rfl

theorem childList_addChild (d c : DocumentSymbol) :
    childList (addChild d c) = childList d ++ (c :: []) := by
  unfold childList addChild
  cases d.children with
  | none => rfl
  | some l => rfl

/-- Attaching the popped record `t` to the record `p` below it preserves the
scan invariant (no reference to the current item needed). -/
theorem attach_inv {t p : Pending} {rr : List Pending} {root : List DocumentSymbol}
    (inv : SRInv (t :: p :: rr) root) :
    SRInv (addChildP p t.sym :: rr) root := by
  have hctp : containsP p t := (List.pairwise_cons.mp inv.chain).1 p (List.mem_cons_self p rr)
  have hGt : GoodP t := inv.good t (List.mem_cons_self t (p :: rr))
  have hGp : GoodP p := inv.good p (List.mem_cons_of_mem t (List.mem_cons_self p rr))
  have hcap : cappedP t.start p := (List.chain'_cons.mp inv.caps).1
  have hchainTail := (List.pairwise_cons.mp inv.chain).2
  have hchainP := List.pairwise_cons.mp hchainTail
  refine ⟨?_, ?_, ?_, ?_, inv.rootDisj, inv.rootGood, ?_⟩
  · intro x hx
    rcases List.mem_cons.mp hx with rfl | hx2
    · exact inv.wf p (List.mem_cons_of_mem t (List.mem_cons_self p rr))
    · exact inv.wf x (List.mem_cons_of_mem t (List.mem_cons_of_mem p hx2))
  · refine List.pairwise_cons.mpr ⟨?_, hchainP.2⟩
    intro l hl
    exact hchainP.1 l hl
  · intro x hx
    rcases List.mem_cons.mp hx with rfl | hx2
    · -- the modified record: its symbol gains the child `t.sym`
      obtain ⟨hGoodp, hps, hpe⟩ := hGp
      obtain ⟨hGoodt, hts, hte⟩ := hGt
      have hsy : (addChildP p t.sym).sym = addChild p.sym t.sym := rfl
      have hrs : (addChild p.sym t.sym).rangeStart = p.sym.rangeStart := rfl
      have hre : (addChild p.sym t.sym).rangeStop = p.sym.rangeStop := rfl
      refine ⟨?_, ?_, ?_⟩
      · rw [hsy]
        cases hGoodp with
        | intro d hb hg hp2 =>
          refine Good.intro _ ?_ ?_ ?_
          · intro c hc2
            rw [childList_addChild] at hc2
            rcases List.mem_append.mp hc2 with hold | hnew
            · rw [hrs, hre]
              exact hb c hold
            · rw [List.mem_singleton.mp hnew]
              constructor
              · rw [hrs, hps, hts]
                exact hctp.1
              · rw [hre, hpe, hte]
                exact hctp.2
          · intro c hc2
            rw [childList_addChild] at hc2
            rcases List.mem_append.mp hc2 with hold | hnew
            · exact hg c hold
            · rw [List.mem_singleton.mp hnew]
              exact hGoodt
          · rw [childList_addChild]
            refine List.pairwise_append.mpr ⟨hp2, List.pairwise_singleton _ _, ?_⟩
            intro c hcold c2 hc2
            rw [List.mem_singleton.mp hc2]
            left
            rw [hts]
            exact hcap c hcold
      · rw [hsy, hrs, hps]
        exact (addChildP_start p t.sym).symm
      · rw [hsy, hre, hpe]
        exact (addChildP_stop p t.sym).symm
    · exact inv.good x (List.mem_cons_of_mem t (List.mem_cons_of_mem p hx2))
  · -- caps chain: the attached children of the new head all predate the old
    -- head's start (unchanged start), and the tail links are untouched
    have htail : List.Chain' (fun u l => cappedP u.start l) (p :: rr) :=
      (List.chain'_cons.mp inv.caps).2
    cases rr with
    | nil => exact List.chain'_singleton _
    | cons q rq =>
      refine List.chain'_cons.mpr ⟨?_, (List.chain'_cons.mp htail).2⟩
      exact (List.chain'_cons.mp htail).1
  · intro r hr x hx
    rcases List.mem_cons.mp hx with rfl | hx2
    · exact inv.rootBelow r hr p (List.mem_cons_of_mem t (List.mem_cons_self p rr))
    · exact inv.rootBelow r hr x (List.mem_cons_of_mem t (List.mem_cons_of_mem p hx2))

theorem popLoop_nil (s : Nat) (root : List DocumentSymbol) :
    popLoop s [] root = ([], root) := rfl

theorem popLoop_keep {s : Nat} {t : Pending} {rest : List Pending}
    {root : List DocumentSymbol} (ht : ¬t.stop ≤ s) :
    popLoop s (t :: rest) root = (t :: rest, root) := by
  unfold popLoop
  rw [List.takeWhile_cons, if_neg (by simp [decide_eq_false ht])]

theorem popLoop_single {s : Nat} {t : Pending} {root : List DocumentSymbol}
    (ht : t.stop ≤ s) :
    popLoop s (t :: []) root = ([], root ++ [t.sym]) := by
  unfold popLoop
  rw [List.takeWhile_cons, if_pos (decide_eq_true ht),
    List.dropWhile_cons, if_pos (decide_eq_true ht)]
  rfl

theorem popLoop_cons_cons {s : Nat} {t p : Pending} {rr : List Pending}
    {root : List DocumentSymbol} (ht : t.stop ≤ s) :
    popLoop s (t :: p :: rr) root = popLoop s (addChildP p t.sym :: rr) root := by
  have h1 : (t :: p :: rr).takeWhile (fun x => decide (x.stop ≤ s)) =
      t :: (p :: rr).takeWhile (fun x => decide (x.stop ≤ s)) := by
    rw [List.takeWhile_cons, if_pos (decide_eq_true ht)]
  by_cases hp : p.stop ≤ s
  · have h2 : (p :: rr).takeWhile (fun x => decide (x.stop ≤ s)) =
        p :: rr.takeWhile (fun x => decide (x.stop ≤ s)) := by
      rw [List.takeWhile_cons, if_pos (decide_eq_true hp)]
    have h2b : (addChildP p t.sym :: rr).takeWhile (fun x => decide (x.stop ≤ s)) =
        addChildP p t.sym :: rr.takeWhile (fun x => decide (x.stop ≤ s)) := by
      rw [List.takeWhile_cons,
        if_pos (decide_eq_true (show (addChildP p t.sym).stop ≤ s from hp))]
    have h3 : (t :: p :: rr).dropWhile (fun x => decide (x.stop ≤ s)) =
        rr.dropWhile (fun x => decide (x.stop ≤ s)) := by
      rw [List.dropWhile_cons, if_pos (decide_eq_true ht),
        List.dropWhile_cons, if_pos (decide_eq_true hp)]
    have h3b : (addChildP p t.sym :: rr).dropWhile (fun x => decide (x.stop ≤ s)) =
        rr.dropWhile (fun x => decide (x.stop ≤ s)) := by
      rw [List.dropWhile_cons,
        if_pos (decide_eq_true (show (addChildP p t.sym).stop ≤ s from hp))]
    unfold popLoop
    rw [h1, h2, h2b, h3, h3b]
    rfl
  · have h2 : (p :: rr).takeWhile (fun x => decide (x.stop ≤ s)) = [] := by
      rw [List.takeWhile_cons, if_neg (by simp [decide_eq_false hp])]
    have h2b : (addChildP p t.sym :: rr).takeWhile (fun x => decide (x.stop ≤ s)) = [] := by
      rw [List.takeWhile_cons,
        if_neg (by simp [decide_eq_false (show ¬(addChildP p t.sym).stop ≤ s from hp)])]
    have h3 : (t :: p :: rr).dropWhile (fun x => decide (x.stop ≤ s)) = p :: rr := by
      rw [List.dropWhile_cons, if_pos (decide_eq_true ht),
        List.dropWhile_cons, if_neg (by simp [decide_eq_false hp])]
    unfold popLoop
    rw [h1, h2, h2b, h3]
    rfl

theorem drainStack_cons_cons {t p : Pending} {rr : List Pending}
    {root : List DocumentSymbol} :
    drainStack (t :: p :: rr) root = drainStack (addChildP p t.sym :: rr) root := rfl

theorem drainStack_single {t : Pending} {root : List DocumentSymbol} :
    drainStack (t :: []) root = root ++ [t.sym] := rfl

theorem drain_spec : ∀ (n : Nat) (stack : List Pending) (root : List DocumentSymbol),
    stack.length ≤ n → SRInv stack root → GoodForest (drainStack stack root) := by
  intro n
  induction n with
  | zero =>
    intro stack root hlen inv
    have h0 : stack = [] := List.eq_nil_of_length_eq_zero (Nat.le_zero.mp hlen)
    subst h0
    exact ⟨inv.rootDisj, inv.rootGood⟩
  | succ n ih =>
    intro stack root hlen inv
    cases stack with
    | nil => exact ⟨inv.rootDisj, inv.rootGood⟩
    | cons t rest =>
      cases rest with
      | nil =>
        rw [drainStack_single]
        have hGt := inv.good t (List.mem_cons_self t [])
        constructor
        · refine List.pairwise_append.mpr
            ⟨inv.rootDisj, List.pairwise_singleton _ _, ?_⟩
          intro r hr x hx
          rw [List.mem_singleton.mp hx]
          left
          rw [hGt.2.1]
          exact inv.rootBelow r hr t (List.mem_cons_self t [])
        · intro x hx
          rcases List.mem_append.mp hx with h | h
          · exact inv.rootGood x h
          · rw [List.mem_singleton.mp h]
            exact hGt.1
      | cons p rr =>
        rw [drainStack_cons_cons]
        refine ih (addChildP p t.sym :: rr) root ?_ (attach_inv inv)
        simp only [List.length_cons] at hlen ⊢
        omega

theorem popLoop_spec : ∀ (n s : Nat) (stack : List Pending) (root : List DocumentSymbol),
    stack.length ≤ n → SRInv stack root →
    (∀ t, stack.head? = some t → cappedP s t) →
    (∀ r ∈ root, r.rangeStop ≤ s) →
    SRInv (popLoop s stack root).1 (popLoop s stack root).2 ∧
    (∀ t, (popLoop s stack root).1.head? = some t → cappedP s t) ∧
    (∀ t, (popLoop s stack root).1.head? = some t → s < t.stop) ∧
    (∀ r ∈ (popLoop s stack root).2, r.rangeStop ≤ s) ∧
    (∀ t ∈ (popLoop s stack root).1,
      (t.start, t.stop) ∈ stack.map (fun x => (x.start, x.stop))) := by
  intro n
  induction n with
  | zero =>
    intro s stack root hlen inv htop hrcap
    have h0 : stack = [] := List.eq_nil_of_length_eq_zero (Nat.le_zero.mp hlen)
    subst h0
    rw [popLoop_nil]
    refine ⟨inv, ?_, ?_, hrcap, ?_⟩
    · intro t ht; cases ht
    · intro t ht; cases ht
    · intro t ht; exact absurd ht (List.not_mem_nil t)
  | succ n ih =>
    intro s stack root hlen inv htop hrcap
    cases stack with
    | nil =>
      rw [popLoop_nil]
      refine ⟨inv, ?_, ?_, hrcap, ?_⟩
      · intro t ht; cases ht
      · intro t ht; cases ht
      · intro t ht; exact absurd ht (List.not_mem_nil t)
    | cons t rest =>
      by_cases ht : t.stop ≤ s
      · cases rest with
        | nil =>
          rw [popLoop_single ht]
          have hGt := inv.good t (List.mem_cons_self t [])
          refine ⟨⟨?_, List.Pairwise.nil, ?_, List.chain'_nil, ?_, ?_, ?_⟩, ?_, ?_, ?_, ?_⟩
          · intro x hx; exact absurd hx (List.not_mem_nil x)
          · intro x hx; exact absurd hx (List.not_mem_nil x)
          · refine List.pairwise_append.mpr
              ⟨inv.rootDisj, List.pairwise_singleton _ _, ?_⟩
            intro r hr x hx
            rw [List.mem_singleton.mp hx]
            left
            rw [hGt.2.1]
            exact inv.rootBelow r hr t (List.mem_cons_self t [])
          · intro x hx
            rcases List.mem_append.mp hx with h | h
            · exact inv.rootGood x h
            · rw [List.mem_singleton.mp h]
              exact hGt.1
          · intro r hr x hx; exact absurd hx (List.not_mem_nil x)
          · intro x hx; cases hx
          · intro x hx; cases hx
          · intro r hr
            rcases List.mem_append.mp hr with h | h
            · exact hrcap r h
            · rw [List.mem_singleton.mp h, hGt.2.2]
              exact ht
          · intro x hx; exact absurd hx (List.not_mem_nil x)
        | cons p rr =>
          rw [popLoop_cons_cons ht]
          have hcapP : ∀ t2, (addChildP p t.sym :: rr).head? = some t2 → cappedP s t2 := by
            intro t2 ht2
            have h2 : addChildP p t.sym = t2 := Option.some.inj ht2
            subst h2
            intro c hc
            have hc2 : c ∈ childList p.sym ++ (t.sym :: []) := by
              have hsy : (addChildP p t.sym).sym = addChild p.sym t.sym := rfl
              rw [hsy, childList_addChild] at hc
              exact hc
            have hcapT : cappedP t.start p := (List.chain'_cons.mp inv.caps).1
            have hwfT : t.start ≤ t.stop := inv.wf t (List.mem_cons_self t (p :: rr))
            rcases List.mem_append.mp hc2 with h | h
            · have := hcapT c h
              omega
            · rw [List.mem_singleton.mp h]
              have hGt := inv.good t (List.mem_cons_self t (p :: rr))
              rw [hGt.2.2]
              exact ht
          have hstep := ih s (addChildP p t.sym :: rr) root
            (by simp only [List.length_cons] at hlen ⊢; omega)
            (attach_inv inv) hcapP hrcap
          obtain ⟨i2, t2, s2, r2, m2⟩ := hstep
          refine ⟨i2, t2, s2, r2, ?_⟩
          intro x hx
          have h5 := m2 x hx
          rw [List.map_cons] at h5
          rw [List.map_cons, List.map_cons]
          rcases List.mem_cons.mp h5 with he | hm
          · rw [he]
            exact List.mem_cons_of_mem _ (List.mem_cons_self _ _)
          · exact List.mem_cons_of_mem _ (List.mem_cons_of_mem _ hm)
      · rw [popLoop_keep ht]
        refine ⟨inv, htop, ?_, hrcap, ?_⟩
        · intro x hx
          have h2 : t = x := Option.some.inj hx
          subst h2
          omega
        · intro x hx
          exact List.mem_map_of_mem (fun y => (y.start, y.stop)) hx

theorem containsP_trans {a b c : Pending} (h1 : containsP a b) (h2 : containsP b c) :
    containsP a c := by
  unfold containsP at *
  omega

theorem childList_of_isNone {d : DocumentSymbol} (h : d.children.isNone = true) :
    childList d = [] := by
  unfold childList
  rw [Option.isNone_iff_eq_none.mp h]
  rfl

theorem good_of_childless {d : DocumentSymbol} (h : d.children.isNone = true) : Good d := by
  refine Good.intro d ?_ ?_ ?_
  · rw [childList_of_isNone h]
    intro c hc
    exact absurd hc (List.not_mem_nil c)
  · rw [childList_of_isNone h]
    intro c hc
    exact absurd hc (List.not_mem_nil c)
  · rw [childList_of_isNone h]
    exact List.Pairwise.nil

theorem scan_spec : ∀ (items stack : List Pending) (root : List DocumentSymbol),
    SRInv stack root →
    List.Pairwise PendLe items →
    List.Pairwise okPair items →
    (∀ it ∈ items, it.start ≤ it.stop) →
    (∀ it ∈ items, it.sym.rangeStart = it.start ∧ it.sym.rangeStop = it.stop ∧
      it.sym.children.isNone = true) →
    (∀ t ∈ stack, ∀ it ∈ items, t.start ≤ it.start ∧ okPair t it) →
    (∀ r ∈ root, ∀ it ∈ items, r.rangeStop ≤ it.start) →
    (∀ it, items.head? = some it → ∀ t, stack.head? = some t → cappedP it.start t) →
    GoodForest (scanItems items stack root) := by
  intro items
  induction items with
  | nil =>
    intro stack root inv _ _ _ _ _ _ _
    exact drain_spec stack.length stack root (le_refl _) inv
  | cons it rest ih =>
    intro stack root inv hsorted hok hiwf hisym hcross hcrossR htop
    have hitmem : it ∈ it :: rest := List.mem_cons_self it rest
    have hPL := popLoop_spec stack.length it.start stack root (le_refl _) inv
      (htop it rfl) (fun r hr => hcrossR r hr it hitmem)
    obtain ⟨inv2, htop2, hstop2, hrcap2, hmem2⟩ := hPL
    have hitwf := hiwf it hitmem
    have hclit : childList it.sym = [] := childList_of_isNone (hisym it hitmem).2.2
    -- interval transport from the surviving stack records
    have hival : ∀ x ∈ (popLoop it.start stack root).1,
        ∃ y ∈ stack, y.start = x.start ∧ y.stop = x.stop := by
      intro x hx
      obtain ⟨y, hy, heq⟩ := List.mem_map.mp (hmem2 x hx)
      have h2 := Prod.mk.injEq _ _ _ _ ▸ heq
      exact ⟨y, hy, h2.1, h2.2⟩
    show GoodForest (scanItems rest (it :: (popLoop it.start stack root).1)
      (popLoop it.start stack root).2)
    -- containment of the new record in every surviving stack record
    have hcontain : ∀ l ∈ (popLoop it.start stack root).1, containsP l it := by
      intro l hl
      cases hS : (popLoop it.start stack root).1 with
      | nil =>
        rw [hS] at hl
        exact absurd hl (List.not_mem_nil l)
      | cons u ls =>
        have hsu : it.start < u.stop := hstop2 u (by rw [hS]; rfl)
        have hcu : containsP u it := by
          obtain ⟨y, hy, hys, hye⟩ := hival u (by rw [hS]; exact List.mem_cons_self u ls)
          have hcr := hcross y hy it hitmem
          have hwfu : u.start ≤ u.stop := inv2.wf u (by rw [hS]; exact List.mem_cons_self u ls)
          unfold okPair at hcr
          unfold containsP
          omega
        rw [hS] at hl
        rcases List.mem_cons.mp hl with rfl | hl2
        · exact hcu
        · have hlu : containsP l u := by
            have hch0 := inv2.chain
            rw [hS] at hch0
            exact (List.pairwise_cons.mp hch0).1 l hl2
          exact containsP_trans hlu hcu
    refine ih (it :: (popLoop it.start stack root).1) (popLoop it.start stack root).2
      ?_ (List.pairwise_cons.mp hsorted).2 (List.pairwise_cons.mp hok).2
      (fun x hx => hiwf x (List.mem_cons_of_mem it hx))
      (fun x hx => hisym x (List.mem_cons_of_mem it hx)) ?_ ?_ ?_
    · -- the invariant for the new stack
      refine ⟨?_, ?_, ?_, ?_, inv2.rootDisj, inv2.rootGood, ?_⟩
      · intro x hx
        rcases List.mem_cons.mp hx with rfl | hx2
        · exact hitwf
        · exact inv2.wf x hx2
      · exact List.pairwise_cons.mpr ⟨hcontain, inv2.chain⟩
      · intro x hx
        rcases List.mem_cons.mp hx with rfl | hx2
        · exact ⟨good_of_childless (hisym x hitmem).2.2, (hisym x hitmem).1,
            (hisym x hitmem).2.1⟩
        · exact inv2.good x hx2
      · refine List.chain'_cons'.mpr ⟨?_, inv2.caps⟩
        intro u hu
        exact htop2 u (Option.mem_def.mp hu)
      · intro r hr x hx
        rcases List.mem_cons.mp hx with rfl | hx2
        · exact hrcap2 r hr
        · exact inv2.rootBelow r hr x hx2
    · -- cross: new stack records all precede and laminate with future items
      intro x hx it2 hit2
      have hle : PendLe it it2 := (List.pairwise_cons.mp hsorted).1 it2 hit2
      rcases List.mem_cons.mp hx with rfl | hx2
      · refine ⟨?_, (List.pairwise_cons.mp hok).1 it2 hit2⟩
        unfold PendLe at hle
        omega
      · obtain ⟨y, hy, hys, hye⟩ := hival x hx2
        have hcr := hcross y hy it2 (List.mem_cons_of_mem it hit2)
        constructor
        · omega
        · unfold okPair at hcr ⊢
          omega
    · -- root records precede all future items
      intro r hr it2 hit2
      have hle : PendLe it it2 := (List.pairwise_cons.mp hsorted).1 it2 hit2
      have h1 := hrcap2 r hr
      unfold PendLe at hle
      omega
    · -- the next item caps the pushed (childless) record trivially
      intro it2 _ x hx
      have h2 : it = x := Option.some.inj hx
      subst h2
      intro c hc
      rw [hclit] at hc
      exact absurd hc (List.not_mem_nil c)

/-- **C3 (amended).** For every input list of classified, named records
whose byte ranges are well-formed (`start ≤ stop`) and pairwise laminar with
distinct start offsets (disjoint, identical, or strictly nested with
different starts — as tree nodes are, except same-start nesting), and whose
symbols carry exactly the record's byte range and no children (as
`collect_document_symbols` builds them), the reconstructed outline satisfies
the nesting invariant: every child's byte range is contained in its parent's,
and no two siblings overlap (at the root level as well).  (The original
claim, over *every* input list, is refuted by `C3_counterexample`: two
overlapping non-nested ranges produce a child outside its parent; same-start
strict nesting fails the same way.) -/
theorem C3_outline_nesting (items : List Pending)
    (hwf : ∀ it ∈ items, it.start ≤ it.stop)
    (hsym : ∀ it ∈ items, it.sym.rangeStart = it.start ∧ it.sym.rangeStop = it.stop ∧
      it.sym.children.isNone = true)
    (hok : List.Pairwise okPair items) :
    GoodForest (nest_pending items) := by
  unfold nest_pending
  refine scan_spec (List.insertionSort PendLe items) [] [] ?_ ?_ ?_ ?_ ?_ ?_ ?_ ?_
  · exact ⟨fun t ht => absurd ht (List.not_mem_nil t), List.Pairwise.nil,
      fun t ht => absurd ht (List.not_mem_nil t), List.chain'_nil, List.Pairwise.nil,
      fun r hr => absurd hr (List.not_mem_nil r),
      fun r hr => absurd hr (List.not_mem_nil r)⟩
  · exact List.sorted_insertionSort PendLe items
  · exact (List.Perm.pairwise_iff (fun h => okPair_symm h)
      (List.perm_insertionSort PendLe items)).mpr hok
  · intro x hx
    exact hwf x ((List.perm_insertionSort PendLe items).subset hx)
  · intro x hx
    exact hsym x ((List.perm_insertionSort PendLe items).subset hx)
  · intro t ht
    exact absurd ht (List.not_mem_nil t)
  · intro r hr
    exact absurd hr (List.not_mem_nil r)
  · intro it2 _ t ht
    cases ht

/-- **C3, counterexample to the claim as stated.**  Two overlapping,
non-nested byte ranges `[0, 10)` and `[5, 20)` (possible in an arbitrary
input list of named, classified nodes; the same failure occurs for the
laminar same-start pair `[0, 5)`, `[0, 10)`): the scan nests `[5, 20)` as a
child of `[0, 10)`, violating child-containment. -/
theorem C3_counterexample :
    ¬ GoodForest (nest_pending
      ({ start := 0, stop := 10,
         sym := make_document_symbol ('a' :: []) SymbolKind.module 0 10 0 1 } ::
       { start := 5, stop := 20,
         sym := make_document_symbol ('b' :: []) SymbolKind.function 5 20 5 6 } :: [])) := by
  intro hGF
  have hmem : addChild (make_document_symbol ('a' :: []) SymbolKind.module 0 10 0 1)
      (make_document_symbol ('b' :: []) SymbolKind.function 5 20 5 6) ∈
      nest_pending
        ({ start := 0, stop := 10,
           sym := make_document_symbol ('a' :: []) SymbolKind.module 0 10 0 1 } ::
         { start := 5, stop := 20,
           sym := make_document_symbol ('b' :: []) SymbolKind.function 5 20 5 6 } :: []) :=
    List.mem_singleton.mpr rfl
  have hGood := hGF.2 _ hmem
  cases hGood with
  | intro d hb hg hp =>
    have hbmem : make_document_symbol ('b' :: []) SymbolKind.function 5 20 5 6 ∈
        childList (addChild (make_document_symbol ('a' :: []) SymbolKind.module 0 10 0 1)
          (make_document_symbol ('b' :: []) SymbolKind.function 5 20 5 6)) :=
      List.mem_singleton.mpr rfl
    have hcon := hb _ hbmem
    have h20 : (20 : Nat) ≤ 10 := hcon.2
    omega

/-- Witness for the amended C3: one well-formed record yields a good
one-node outline. -/
theorem C3_witness :
    (∀ it ∈ (({ start := 0, stop := 5,
                sym := make_document_symbol ('x' :: []) SymbolKind.function
                  0 5 0 1 } : Pending) :: ([] : List Pending)),
      it.start ≤ it.stop) ∧
    (∀ it ∈ (({ start := 0, stop := 5,
                sym := make_document_symbol ('x' :: []) SymbolKind.function
                  0 5 0 1 } : Pending) :: ([] : List Pending)),
      it.sym.rangeStart = it.start ∧ it.sym.rangeStop = it.stop ∧
        it.sym.children.isNone = true) ∧
    GoodForest (nest_pending
      ({ start := 0, stop := 5,
         sym := make_document_symbol ('x' :: []) SymbolKind.function 0 5 0 1 } :: [])) :=
  ⟨by decide, by decide,
    C3_outline_nesting _ (by decide) (by decide)
      (List.pairwise_singleton okPair _)⟩
